import Mathlib

/-!
# TinyTensor: a shallow embedding of `Ödev1/main.c`

The C file keeps a flat tensor in one of three physical encodings behind a
uniform float32 read/write interface.  The embedding below follows the C text
function by function:

* `create_tensor`   : lines 32-52
* `set_element_f32` : lines 55-71
* `get_element_f32` : lines 74-86
* `main`            : lines 96-111 (the quantised demonstration)

Modelling conventions:

* C `float` is IEEE-754 binary32, held as its bit pattern; `/`, `+`, `*` and
  the `int` to `float` conversion round to nearest, ties to even, once per
  operation (`FLT_EVAL_METHOD = 0`).  Every NaN result is the canonical quiet
  NaN.
* `uint32_t` lengths and indices are naturals (the code only compares them
  and indexes with them), `int8_t` is an integer with its range, and
  `q_val - t->zero_point` is the exact `int` difference.
* `void* data` is a list of bytes, elements stored least significant byte
  first; the null pointer is `none`.
* `TensorType` is the closed enumeration of lines 6-10.
* Undefined behaviour (an access through a null or too short buffer, a
  float-to-integer conversion outside the modelled range) is the result
  `none` of the operation.
* `malloc` and `calloc` may fail: their outcome is a parameter (`Heap`).
-/

namespace Odev1

/-! ## IEEE-754 binary32 -/

/-- A C `float`: the 32-bit pattern of an IEEE-754 binary32 value. -/
structure F32 where
  bits : Nat
  isLt : bits < 4294967296
deriving DecidableEq

/-- The unpacked view of a binary32 value: the finite case stands for
`(-1)^neg * m * 2^e`. -/
inductive FVal where
  | nan
  | inf (neg : Bool)
  | fin (neg : Bool) (m : Nat) (e : Int)
deriving DecidableEq

namespace F32

/-- The float with the given pattern (reduced to 32 bits). -/
def ofBits (n : Nat) : F32 := ⟨n % 4294967296, Nat.mod_lt _ (by decide)⟩

/-- Sign bit (bit 31). -/
def sign (x : F32) : Bool := decide (2147483648 ≤ x.bits)

/-- Biased exponent field (bits 30..23). -/
def expField (x : F32) : Nat := x.bits / 8388608 % 256

/-- Fraction field (bits 22..0). -/
def manField (x : F32) : Nat := x.bits % 8388608

/-- Unpacking of the three fields. -/
def decode (x : F32) : FVal :=
  if x.expField = 255 then
    if x.manField = 0 then FVal.inf x.sign else FVal.nan
  else if x.expField = 0 then FVal.fin x.sign x.manField (-149)
  else FVal.fin x.sign (8388608 + x.manField) ((x.expField : Int) - 150)

/-- Sign bit followed by the 31 low bits `field`. -/
def pack (neg : Bool) (field : Nat) : F32 :=
  ofBits ((if neg then 2147483648 else 0) + field)

/-- The canonical quiet NaN, the result of every invalid operation. -/
def qnan : F32 := ofBits 2143289344

/-- Signed infinity. -/
def infinity (neg : Bool) : F32 := pack neg 2139095040

/-- Signed zero. -/
def zero (neg : Bool) : F32 := pack neg 0

/-- The integer nearest to `num / den`, ties to the even one. -/
def roundHalfEven (num den : Nat) : Nat :=
  let q := num / den
  let r := num % den
  if 2 * r < den then q
  else if den < 2 * r then q + 1
  else if q % 2 = 0 then q else q + 1

/-- Binary logarithm by repeated halving, at most `fuel` times. -/
def log2Fuel : Nat → Nat → Nat
  | 0, _ => 0
  | fuel + 1, n => if n < 2 then 0 else log2Fuel fuel (n / 2) + 1

/-- The position of the leading bit of `n`, that is `⌊log₂ n⌋` (0 for 0). -/
def ilog2 (n : Nat) : Nat := log2Fuel n n

/-- The fraction `N / D * 2^e` written as a fraction of naturals. -/
def shiftFrac (N D : Nat) (e : Int) : Nat × Nat :=
  if 0 ≤ e then (N * 2 ^ e.toNat, D) else (N, D * 2 ^ (-e).toNat)

/-- The exponent `E` with `2^E ≤ N / D < 2^(E+1)`, for positive `N` and `D`. -/
def ratLog2 (N D : Nat) : Int :=
  let E0 : Int := (ilog2 N : Int) - (ilog2 D : Int)
  let p := shiftFrac N D (-E0)
  if p.2 ≤ p.1 then E0 else E0 - 1

/-- Round-to-nearest-even of the exact value `(-1)^neg * (n / d) * 2^e` (with
`d > 0`) to binary32: gradual underflow below `2^-126`, overflow to infinity.
`E` is the exponent of the result's binade (at least `-126`), the significand
`m` is `n / d * 2^e` in units of `2^(E - 23)` rounded to an integer, and the
31 low bits are `(E + 126) * 2^23 + m`: a significand below `2^23` leaves the
exponent field at `E + 126 = 0` (subnormal), one from `2^23` on carries into
it. -/
def round (neg : Bool) (n d : Nat) (e : Int) : F32 :=
  if n = 0 then zero neg
  else
    let p := shiftFrac n d e
    let E := max (ratLog2 p.1 p.2) (-126)
    let r := shiftFrac p.1 p.2 (23 - E)
    let m := roundHalfEven r.1 r.2
    let field := (E + 126).toNat * 8388608 + m
    if 2139095040 ≤ field then infinity neg else pack neg field

/-- C `a / b` on floats. -/
def fdiv (a b : F32) : F32 :=
  match a.decode, b.decode with
  | FVal.nan, _ => qnan
  | _, FVal.nan => qnan
  | FVal.inf _, FVal.inf _ => qnan
  | FVal.inf s, FVal.fin t _ _ => infinity (xor s t)
  | FVal.fin s _ _, FVal.inf t => zero (xor s t)
  | FVal.fin s m e, FVal.fin t n f =>
    if n = 0 then (if m = 0 then qnan else infinity (xor s t))
    else round (xor s t) m n (e - f)

/-- C `a * b` on floats. -/
def fmul (a b : F32) : F32 :=
  match a.decode, b.decode with
  | FVal.nan, _ => qnan
  | _, FVal.nan => qnan
  | FVal.inf s, FVal.inf t => infinity (xor s t)
  | FVal.inf s, FVal.fin t n _ => if n = 0 then qnan else infinity (xor s t)
  | FVal.fin s m _, FVal.inf t => if m = 0 then qnan else infinity (xor s t)
  | FVal.fin s m e, FVal.fin t n f => round (xor s t) (m * n) 1 (e + f)

/-- The signed significand of a finite value at the common exponent `e`. -/
def aligned (neg : Bool) (m : Nat) (e₀ e : Int) : Int :=
  let v : Int := (m : Int) * 2 ^ (e₀ - e).toNat
  if neg then -v else v

/-- C `a + b` on floats. -/
def fadd (a b : F32) : F32 :=
  match a.decode, b.decode with
  | FVal.nan, _ => qnan
  | _, FVal.nan => qnan
  | FVal.inf s, FVal.inf t => if s = t then infinity s else qnan
  | FVal.inf s, FVal.fin _ _ _ => infinity s
  | FVal.fin _ _ _, FVal.inf t => infinity t
  | FVal.fin s m e, FVal.fin t n f =>
    let g := min e f
    let c := aligned s m e g + aligned t n f g
    if c = 0 then zero (s && t) else round (decide (c < 0)) c.natAbs 1 g

/-- C conversion of an `int` to `float`. -/
def ofInt (i : Int) : F32 := round (decide (i < 0)) i.natAbs 1 0

/-- The integral part of a finite float (truncation toward zero); `none` for a
NaN or an infinity. -/
def truncToInt (x : F32) : Option Int :=
  match x.decode with
  | FVal.fin neg m e =>
    let mag : Nat := if 0 ≤ e then m * 2 ^ e.toNat else m / 2 ^ (-e).toNat
    some (if neg then -(mag : Int) else (mag : Int))
  | _ => none

end F32

/-- The float written `1.0f` in C. -/
def F32.one : F32 := F32.ofBits 1065353216

/-- The float nearest to the decimal literal `num / den`, negated when `neg`
(the value of a C literal such as `0.05f`). -/
def F32.ofDecimal (neg : Bool) (num den : Nat) : F32 := F32.round neg num den 0

/-! ## Machine integers and bytes -/

/-- A C `int8_t`. -/
structure I8 where
  val : Int
  lo : -128 ≤ val
  hi : val ≤ 127
deriving DecidableEq

/-- One byte of memory. -/
abbrev Byte := Fin 256

/-- Two's-complement narrowing of an integer to 8 signed bits. -/
def wrapInt8 (i : Int) : I8 := ⟨(i + 128) % 256 - 128, by omega, by omega⟩

/-- The `int8_t` zero. -/
def I8.zero : I8 := ⟨0, by decide, by decide⟩

/-- The byte holding an `int8_t` (two's complement). -/
def I8.toByte (q : I8) : Byte := ⟨(q.val % 256).toNat, by omega⟩

/-- The `int8_t` held by a byte (two's complement). -/
def I8.ofByte (b : Byte) : I8 :=
  ⟨if b.val < 128 then (b.val : Int) else (b.val : Int) - 256,
   by have := b.isLt; split <;> omega, by have := b.isLt; split <;> omega⟩

/-- C `(int8_t)x` for a float `x`.  ISO C defines the conversion only when the
integral part fits the destination.  The usual targets convert through a
32-bit integer and keep the low byte, so exactly that is modelled wherever the
integral part fits 32 signed bits; a NaN, an infinity or a larger magnitude
is left undefined. -/
def F32.toInt8 (x : F32) : Option I8 :=
  match x.truncToInt with
  | some i => if -2147483648 ≤ i ∧ i ≤ 2147483647 then some (wrapInt8 i) else none
  | none => none

/-- C `(uint16_t)x` for a float `x`, with the same convention as `F32.toInt8`:
the integral part is converted through a 32-bit integer and the low 16 bits
are kept; negative integral parts, NaN, infinities and larger magnitudes are
left undefined. -/
def F32.toUInt16 (x : F32) : Option Nat :=
  match x.truncToInt with
  | some i => if 0 ≤ i ∧ i ≤ 2147483647 then some (i.toNat % 65536) else none
  | none => none

/-- The low byte of a natural number. -/
def byteOf (n : Nat) : Byte := ⟨n % 256, Nat.mod_lt _ (by decide)⟩

/-- The four bytes of a float in memory, least significant first. -/
def F32.toBytes (x : F32) : List Byte :=
  [byteOf x.bits, byteOf (x.bits / 256), byteOf (x.bits / 65536), byteOf (x.bits / 16777216)]

/-- The float held by four bytes of memory. -/
def F32.ofBytes : List Byte → Option F32
  | [b0, b1, b2, b3] =>
    some ⟨b0.val + 256 * b1.val + 65536 * b2.val + 16777216 * b3.val, by omega⟩
  | _ => none

/-- The two bytes of a `uint16_t` in memory, least significant first. -/
def u16ToBytes (n : Nat) : List Byte := [byteOf n, byteOf (n / 256)]

/-! ## The buffer behind `void* data` -/

/-- The `n` bytes at offset `off`; `none` when the range leaves the block. -/
def readBytes (buf : List Byte) (off n : Nat) : Option (List Byte) :=
  if off + n ≤ buf.length then some ((buf.drop off).take n) else none

/-- The block with `bs` stored at offset `off`; `none` when the range leaves
the block. -/
def writeBytes (buf : List Byte) (off : Nat) (bs : List Byte) : Option (List Byte) :=
  if off + bs.length ≤ buf.length then
    some (buf.take off ++ bs ++ buf.drop (off + bs.length))
  else none

/-- `((float*)data)[index]` as an rvalue; a null `data` has no elements. -/
def load_f32 (data : Option (List Byte)) (index : Nat) : Option F32 :=
  match data with
  | none => none
  | some buf =>
    match readBytes buf (4 * index) 4 with
    | none => none
    | some bs => F32.ofBytes bs

/-- `((float*)data)[index] = v`. -/
def store_f32 (data : Option (List Byte)) (index : Nat) (v : F32) : Option (List Byte) :=
  match data with
  | none => none
  | some buf => writeBytes buf (4 * index) v.toBytes

/-- `((int8_t*)data)[index]` as an rvalue. -/
def load_i8 (data : Option (List Byte)) (index : Nat) : Option I8 :=
  match data with
  | none => none
  | some buf =>
    match readBytes buf index 1 with
    | some [b] => some (I8.ofByte b)
    | _ => none

/-- `((int8_t*)data)[index] = q`. -/
def store_i8 (data : Option (List Byte)) (index : Nat) (q : I8) : Option (List Byte) :=
  match data with
  | none => none
  | some buf => writeBytes buf index [q.toByte]

/-- `((uint16_t*)data)[index] = n`. -/
def store_u16 (data : Option (List Byte)) (index : Nat) (n : Nat) : Option (List Byte) :=
  match data with
  | none => none
  | some buf => writeBytes buf (2 * index) (u16ToBytes n)

/-! ## The tensor (lines 6-21) -/

/-- `TensorType` (lines 6-10). -/
inductive TensorType where
  | DTYPE_F32
  | DTYPE_F16
  | DTYPE_I8
deriving DecidableEq

/-- `TinyTensor` (lines 13-21); `data = none` is the null pointer. -/
structure TinyTensor where
  type : TensorType
  length : Nat
  data : Option (List Byte)
  scale : F32
  zero_point : I8
deriving DecidableEq

/-- The outcome of the two allocation requests `create_tensor` makes: whether
`malloc` hands out the descriptor and whether `calloc` hands out the buffer. -/
structure Heap where
  mallocOk : Bool
  callocOk : Bool
deriving DecidableEq

/-- The `switch` of lines 43-48: `sizeof` of the element type. -/
def element_size : TensorType → Nat
  | TensorType.DTYPE_F32 => 4
  | TensorType.DTYPE_F16 => 2
  | TensorType.DTYPE_I8 => 1

/-- `calloc(len, element_size)`: a zero-filled block of `len * element_size`
bytes, or the null pointer. -/
def calloc (ok : Bool) (len size : Nat) : Option (List Byte) :=
  if ok then some (List.replicate (len * size) 0) else none

/-- `create_tensor` (lines 32-52); the result `none` is the returned `NULL`. -/
def create_tensor (h : Heap) (len : Nat) (type : TensorType) : Option TinyTensor :=
  if !h.mallocOk then none
  else
    some { length := len
           type := type
           scale := F32.one
           zero_point := I8.zero
           data := calloc h.callocOk len (element_size type) }

/-- `set_element_f32` (lines 55-71).  The result is the tensor after the call;
`none` stands for undefined behaviour (a store through a null or too short
buffer, or a float-to-integer conversion C leaves undefined). -/
def set_element_f32 (t : TinyTensor) (index : Nat) (value : F32) : Option TinyTensor :=
  if index ≥ t.length then some t
  else if t.type = TensorType.DTYPE_F32 then
    match store_f32 t.data index value with
    | none => none
    | some d => some { t with data := some d }
  else if t.type = TensorType.DTYPE_I8 then
    match (F32.fadd (F32.fdiv value t.scale) (F32.ofInt t.zero_point.val)).toInt8 with
    | none => none
    | some q_val =>
      match store_i8 t.data index q_val with
      | none => none
      | some d => some { t with data := some d }
  else if t.type = TensorType.DTYPE_F16 then
    match value.toUInt16 with
    | none => none
    | some h =>
      match store_u16 t.data index h with
      | none => none
      | some d => some { t with data := some d }
  else some t

/-- `get_element_f32` (lines 74-86); `none` stands for undefined behaviour (a
load through a null or too short buffer). -/
def get_element_f32 (t : TinyTensor) (index : Nat) : Option F32 :=
  if index ≥ t.length then some (F32.zero false)
  else if t.type = TensorType.DTYPE_F32 then load_f32 t.data index
  else if t.type = TensorType.DTYPE_I8 then
    match load_i8 t.data index with
    | none => none
    | some q_val => some (F32.fmul (F32.ofInt (q_val.val - t.zero_point.val)) t.scale)
  else some (F32.zero false)

/-- The representation invariant: `data` is a block of exactly
`length * element_size type` bytes. -/
def TinyTensor.Valid (t : TinyTensor) : Prop :=
  ∃ buf, t.data = some buf ∧ buf.length = t.length * element_size t.type

/-- The bytes of element `j` of the buffer, for the tensor's element size. -/
def TinyTensor.element_bytes (t : TinyTensor) (j : Nat) : Option (List Byte) :=
  match t.data with
  | none => none
  | some buf => readBytes buf (element_size t.type * j) (element_size t.type)

/-- The float-to-integer conversion that `set_element_f32` performs for the
tensor's encoding is one the model defines for `value` (always so for
`DTYPE_F32`, which converts nothing). -/
def TinyTensor.Storable (t : TinyTensor) (value : F32) : Prop :=
  match t.type with
  | TensorType.DTYPE_F32 => True
  | TensorType.DTYPE_I8 =>
    (F32.fadd (F32.fdiv value t.scale) (F32.ofInt t.zero_point.val)).toInt8 ≠ none
  | TensorType.DTYPE_F16 => value.toUInt16 ≠ none

instance (t : TinyTensor) (value : F32) : Decidable (t.Storable value) := by
  unfold TinyTensor.Storable
  split <;> infer_instance

/-- What the owner of a live tensor may do to it: an element write through
`set_element_f32`, or a direct assignment to `scale` or to `zero_point`
(as `main` does in lines 99-100). -/
inductive Op where
  | set (index : Nat) (value : F32)
  | setScale (s : F32)
  | setZeroPoint (z : I8)

/-- One owner operation. -/
def Op.apply (t : TinyTensor) : Op → Option TinyTensor
  | Op.set index value => set_element_f32 t index value
  | Op.setScale s => some { t with scale := s }
  | Op.setZeroPoint z => some { t with zero_point := z }

/-- A sequence of owner operations, left to right. -/
def run (t : TinyTensor) : List Op → Option TinyTensor
  | [] => some t
  | op :: ops =>
    match op.apply t with
    | none => none
    | some t' => run t' ops

/-- Lines 98-103 of `main`: the tensor after
`create_tensor(10, DTYPE_I8)`, `scale = 0.05f`, `zero_point = 0` and
`set_element_f32(my_layer, 0, 12.5f)` (`main` does not test for `NULL`). -/
def main_layer (h : Heap) : Option TinyTensor :=
  match create_tensor h 10 TensorType.DTYPE_I8 with
  | none => none
  | some my_layer =>
    set_element_f32
      { my_layer with scale := F32.ofDecimal false 5 100, zero_point := I8.zero }
      0 (F32.ofDecimal false 125 10)

/-- The quantisation target as the code forms it (line 63): the integral
part of the float sum `value / scale + zero_point`. -/
def quantize_target (scale : F32) (zero_point : I8) (value : F32) : Option Int :=
  (F32.fadd (F32.fdiv value scale) (F32.ofInt zero_point.val)).truncToInt

/-- The quantisation target in the specification's words:
`round_toward_zero(value / scale) + zero_point`. -/
def spec_quantize_target (scale : F32) (zero_point : I8) (value : F32) : Option Int :=
  match (F32.fdiv value scale).truncToInt with
  | none => none
  | some r => some (r + zero_point.val)

/-! ## Exact values -/

/-- The rational number a finite unpacked value stands for (0 for a NaN or an
infinity, which stand for none). -/
def FVal.toRat : FVal → ℚ
  | FVal.fin neg m e => (if neg then -(m : ℚ) else (m : ℚ)) * (2 : ℚ) ^ e
  | _ => 0

/-- The rational number a finite float stands for. -/
def F32.toRat (x : F32) : ℚ := x.decode.toRat

/-- The float is neither a NaN nor an infinity. -/
def F32.isFinite (x : F32) : Prop := x.expField ≠ 255

instance (x : F32) : Decidable x.isFinite := by
  unfold F32.isFinite
  infer_instance

/-- C `fabsf(x) <= fabsf(y)`: the comparison of magnitudes, false as soon as
one operand is a NaN. -/
def F32.absLe (x y : F32) : Prop :=
  match x.decode, y.decode with
  | FVal.fin _ m e, FVal.fin _ n f => (m : ℚ) * (2 : ℚ) ^ e ≤ (n : ℚ) * (2 : ℚ) ^ f
  | FVal.fin _ _ _, FVal.inf _ => True
  | FVal.inf _, FVal.inf _ => True
  | _, _ => False

/-- The magnitude `a` lies on the same side of every integer below `2^24` as
the magnitude `b`. -/
def SameSide (a b : ℚ) : Prop :=
  ∀ K : Nat, K < 16777216 → (b ≤ K → a ≤ K) ∧ ((K : ℚ) ≤ b → (K : ℚ) ≤ a)

/-! ## Concrete inputs -/

/-- A one-element `DTYPE_I8` tensor with `scale = 1.0f` and `zero_point = 1`. -/
def offset_tensor : TinyTensor :=
  ⟨TensorType.DTYPE_I8, 1, some [byteOf 0], F32.one, ⟨1, by decide, by decide⟩⟩

/-- A one-element `DTYPE_I8` tensor with `scale = 9227463 * 2^-23`
(about 1.1) and `zero_point = -15`. -/
def step_tensor : TinyTensor :=
  ⟨TensorType.DTYPE_I8, 1, some [byteOf 0], F32.ofBits 1066192071, ⟨-15, by decide, by decide⟩⟩

/-- The float `16148061 * 2^-20` (about 15.4). -/
def step_value : F32 := F32.ofBits 1098278493

/-- A one-element `DTYPE_I8` tensor with `scale = 1.0f` and `zero_point = 100`. -/
def high_offset_tensor : TinyTensor :=
  ⟨TensorType.DTYPE_I8, 1, some [byteOf 0], F32.one, ⟨100, by decide, by decide⟩⟩

/-- A one-element `DTYPE_I8` tensor with `scale = 0.5f` and `zero_point = 3`. -/
def half_step_tensor : TinyTensor :=
  ⟨TensorType.DTYPE_I8, 1, some [byteOf 0], F32.ofDecimal false 1 2, ⟨3, by decide, by decide⟩⟩

/-- A one-element `DTYPE_I8` tensor with `scale = +infinity`, `zero_point = 5`
and the stored integer `5`. -/
def inf_scale_tensor : TinyTensor :=
  ⟨TensorType.DTYPE_I8, 1, some [byteOf 5], F32.infinity false, ⟨5, by decide, by decide⟩⟩

/-- A one-element `DTYPE_F16` tensor with a zeroed buffer. -/
def half_tensor : TinyTensor :=
  ⟨TensorType.DTYPE_F16, 1, some [byteOf 0, byteOf 0], F32.one, I8.zero⟩

/-- A one-element `DTYPE_I8` tensor with `scale = 1 + 2^-23` (the float after
`1.0f`), `zero_point = -128` and the stored integer `127`. -/
def unit_step_tensor : TinyTensor :=
  ⟨TensorType.DTYPE_I8, 1, some [byteOf 127], F32.ofBits 1065353217,
    ⟨-128, by decide, by decide⟩⟩

/-! ## Memory lemmas -/

theorem F32.ofBytes_toBytes (x : F32) : F32.ofBytes x.toBytes = some x := by
  obtain ⟨b, hb⟩ := x
  simp only [F32.toBytes, F32.ofBytes, byteOf, Option.some.injEq, F32.mk.injEq]
  omega

theorem F32.toBytes_length (x : F32) : x.toBytes.length = 4 := rfl

theorem I8.ofByte_toByte (q : I8) : I8.ofByte q.toByte = q := by
  obtain ⟨v, hlo, hhi⟩ := q
  simp only [I8.ofByte, I8.toByte, I8.mk.injEq]
  split <;> omega

theorem writeBytes_length {buf buf' : List Byte} {off : Nat} {bs : List Byte}
    (h : writeBytes buf off bs = some buf') : buf'.length = buf.length := by
  unfold writeBytes at h
  split at h
  · cases h
    simp only [List.length_append, List.length_take, List.length_drop]
    omega
  · cases h

theorem writeBytes_isSome {buf : List Byte} {off : Nat} {bs : List Byte}
    (h : off + bs.length ≤ buf.length) : ∃ buf', writeBytes buf off bs = some buf' := by
  unfold writeBytes
  rw [if_pos h]
  exact ⟨_, rfl⟩

theorem readBytes_writeBytes_same {buf buf' : List Byte} {off : Nat} {bs : List Byte}
    (h : writeBytes buf off bs = some buf') : readBytes buf' off bs.length = some bs := by
  have hlen := writeBytes_length h
  unfold writeBytes at h
  split at h
  · rename_i hle
    cases h
    unfold readBytes
    rw [if_pos (by rw [hlen]; exact hle)]
    have htake : (buf.take off).length = off := by
      rw [List.length_take]; omega
    rw [List.append_assoc, List.drop_left' htake, List.take_left' rfl]
  · cases h

theorem readBytes_writeBytes_other {buf buf' : List Byte} {off : Nat} {bs : List Byte}
    (h : writeBytes buf off bs = some buf') (off' n : Nat)
    (hd : off' + n ≤ off ∨ off + bs.length ≤ off') :
    readBytes buf' off' n = readBytes buf off' n := by
  have hlen := writeBytes_length h
  unfold writeBytes at h
  split at h
  · rename_i hle
    cases h
    unfold readBytes
    rw [hlen]
    split
    · rename_i hin
      congr 1
      apply List.ext_getElem?
      intro k
      simp only [List.getElem?_take, List.getElem?_drop, List.getElem?_append,
        List.length_take, List.length_append]
      by_cases hk : k < n
      · simp only [hk, if_true]
        rcases hd with hd | hd
        · have h1 : off' + k < min off buf.length := by omega
          have h2 : off' + k < off := by omega
          have h3 : off' + k < min off buf.length + bs.length := by omega
          rw [if_pos h3, if_pos h1, if_pos h2]
        · have h1 : ¬ off' + k < min off buf.length + bs.length := by omega
          rw [if_neg h1]
          congr 1
          omega
      · simp only [hk, if_false]
    · rfl
  · cases h

/-! ## Rounding -/

namespace F32

theorem log2Fuel_spec : ∀ (fuel n : Nat), n ≤ fuel → 0 < n →
    2 ^ log2Fuel fuel n ≤ n ∧ n < 2 ^ (log2Fuel fuel n + 1) := by
  intro fuel
  induction fuel with
  | zero => intro n h1 h2; omega
  | succ fuel ih =>
    intro n h1 h2
    unfold log2Fuel
    by_cases hn : n < 2
    · rw [if_pos hn]
      simp only [pow_zero, zero_add, pow_one]
      omega
    · rw [if_neg hn]
      obtain ⟨ha, hb⟩ := ih (n / 2) (by omega) (by omega)
      rw [pow_succ, pow_succ]
      rw [pow_succ] at hb
      constructor <;> omega

theorem ilog2_spec {n : Nat} (h : 0 < n) : 2 ^ ilog2 n ≤ n ∧ n < 2 ^ (ilog2 n + 1) :=
  log2Fuel_spec n n (Nat.le_refl n) h

theorem shiftFrac_pos {N D : Nat} (e : Int) (hD : 0 < D) : 0 < (shiftFrac N D e).2 := by
  unfold shiftFrac
  split
  · exact hD
  · exact Nat.mul_pos hD (by positivity)

theorem shiftFrac_num_pos {N D : Nat} (e : Int) (hN : 0 < N) : 0 < (shiftFrac N D e).1 := by
  unfold shiftFrac
  split
  · exact Nat.mul_pos hN (by positivity)
  · exact hN

theorem shiftFrac_spec {N D : Nat} (e : Int) (hD : 0 < D) :
    ((shiftFrac N D e).1 : ℚ) / ((shiftFrac N D e).2 : ℚ) = (N : ℚ) / (D : ℚ) * (2 : ℚ) ^ e := by
  have hD' : (D : ℚ) ≠ 0 := by exact_mod_cast hD.ne'
  unfold shiftFrac
  split
  · rename_i he
    obtain ⟨k, rfl⟩ := Int.eq_ofNat_of_zero_le he
    simp only [Int.toNat_ofNat, Nat.cast_mul, Nat.cast_pow, Nat.cast_ofNat, zpow_natCast]
    ring
  · rename_i he
    obtain ⟨k, hk⟩ := Int.eq_ofNat_of_zero_le (show 0 ≤ -e by omega)
    have he' : e = -(k : Int) := by omega
    subst he'
    simp only [neg_neg, Int.toNat_ofNat, Nat.cast_mul, Nat.cast_pow, Nat.cast_ofNat, zpow_neg,
      zpow_natCast]
    field_simp

theorem ratLog2_spec {N D : Nat} (hN : 0 < N) (hD : 0 < D) :
    (2 : ℚ) ^ ratLog2 N D ≤ (N : ℚ) / (D : ℚ) ∧ (N : ℚ) / (D : ℚ) < (2 : ℚ) ^ (ratLog2 N D + 1) := by
  obtain ⟨ha1, ha2⟩ := ilog2_spec hN
  obtain ⟨hb1, hb2⟩ := ilog2_spec hD
  have hDq : (0 : ℚ) < D := by exact_mod_cast hD
  have ha1' : (2 : ℚ) ^ (ilog2 N : Int) ≤ N := by
    rw [zpow_natCast]; exact_mod_cast ha1
  have ha2' : (N : ℚ) < (2 : ℚ) ^ ((ilog2 N : Int) + 1) := by
    have : (N : ℚ) < (2 : ℚ) ^ (ilog2 N + 1) := by exact_mod_cast ha2
    rwa [← zpow_natCast, Nat.cast_add, Nat.cast_one] at this
  have hb1' : (2 : ℚ) ^ (ilog2 D : Int) ≤ D := by
    rw [zpow_natCast]; exact_mod_cast hb1
  have hb2' : (D : ℚ) < (2 : ℚ) ^ ((ilog2 D : Int) + 1) := by
    have : (D : ℚ) < (2 : ℚ) ^ (ilog2 D + 1) := by exact_mod_cast hb2
    rwa [← zpow_natCast, Nat.cast_add, Nat.cast_one] at this
  have h2 : (0 : ℚ) < 2 := by norm_num
  -- coarse bounds: 2^(a-b-1) < N/D < 2^(a-b+1)
  have hlow : (2 : ℚ) ^ ((ilog2 N : Int) - (ilog2 D : Int) - 1) < (N : ℚ) / D := by
    rw [lt_div_iff₀ hDq]
    calc (2 : ℚ) ^ ((ilog2 N : Int) - (ilog2 D : Int) - 1) * D
        < (2 : ℚ) ^ ((ilog2 N : Int) - (ilog2 D : Int) - 1) * (2 : ℚ) ^ ((ilog2 D : Int) + 1) :=
          mul_lt_mul_of_pos_left hb2' (zpow_pos h2 _)
      _ = (2 : ℚ) ^ (ilog2 N : Int) := by
          rw [← zpow_add₀ (by norm_num : (2 : ℚ) ≠ 0)]; congr 1; ring
      _ ≤ N := ha1'
  have hhigh : (N : ℚ) / D < (2 : ℚ) ^ ((ilog2 N : Int) - (ilog2 D : Int) + 1) := by
    rw [div_lt_iff₀ hDq]
    calc (N : ℚ) < (2 : ℚ) ^ ((ilog2 N : Int) + 1) := ha2'
      _ = (2 : ℚ) ^ ((ilog2 N : Int) - (ilog2 D : Int) + 1) * (2 : ℚ) ^ (ilog2 D : Int) := by
          rw [← zpow_add₀ (by norm_num : (2 : ℚ) ≠ 0)]; congr 1; ring
      _ ≤ (2 : ℚ) ^ ((ilog2 N : Int) - (ilog2 D : Int) + 1) * D :=
          mul_le_mul_of_nonneg_left hb1' (zpow_pos h2 _).le
  have hs := shiftFrac_spec (N := N) (-((ilog2 N : Int) - (ilog2 D : Int))) hD
  have hp := shiftFrac_pos (N := N) (-((ilog2 N : Int) - (ilog2 D : Int))) hD
  have hpq : (0 : ℚ) < ((shiftFrac N D (-((ilog2 N : Int) - (ilog2 D : Int)))).2 : ℚ) := by
    exact_mod_cast hp
  unfold ratLog2
  simp only
  split
  · rename_i hle
    have h1 : (1 : ℚ) ≤ (N : ℚ) / D * (2 : ℚ) ^ (-((ilog2 N : Int) - (ilog2 D : Int))) := by
      rw [← hs, le_div_iff₀ hpq, one_mul]; exact_mod_cast hle
    refine ⟨?_, hhigh⟩
    rw [zpow_neg, ← div_eq_mul_inv, le_div_iff₀ (zpow_pos h2 _), one_mul] at h1
    exact h1
  · rename_i hle
    have h1 : (N : ℚ) / D * (2 : ℚ) ^ (-((ilog2 N : Int) - (ilog2 D : Int))) < 1 := by
      rw [← hs, div_lt_iff₀ hpq, one_mul]; exact_mod_cast (Nat.lt_of_not_le hle)
    refine ⟨hlow.le, ?_⟩
    rw [zpow_neg, ← div_eq_mul_inv, div_lt_iff₀ (zpow_pos h2 _), one_mul] at h1
    simpa using h1

theorem roundHalfEven_le {num den K : Nat} (hden : 0 < den) (h : num ≤ K * den) :
    roundHalfEven num den ≤ K := by
  have hq : num / den ≤ K := Nat.div_le_of_le_mul (by rwa [Nat.mul_comm] at h)
  have hdm := Nat.div_add_mod num den
  have hr : 0 < num % den → num / den < K := by
    intro hpos
    rw [Nat.div_lt_iff_lt_mul hden]
    rcases Nat.lt_or_ge num (K * den) with hlt | hge
    · exact hlt
    · have heq : num = K * den := Nat.le_antisymm h hge
      rw [heq, Nat.mul_mod_left] at hpos
      omega
  unfold roundHalfEven
  simp only
  split
  · exact hq
  · split
    · have := hr (by omega); omega
    · split
      · exact hq
      · have := hr (by omega); omega

theorem le_roundHalfEven {num den K : Nat} (hden : 0 < den) (h : K * den ≤ num) :
    K ≤ roundHalfEven num den := by
  have hq : K ≤ num / den := (Nat.le_div_iff_mul_le hden).mpr h
  unfold roundHalfEven
  simp only
  split
  · exact hq
  · split
    · omega
    · split
      · exact hq
      · omega

theorem decode_pack_fin (neg : Bool) (B m : Nat) (hf : B * 8388608 + m < 2139095040)
    (hm : m ≤ 16777216) (hB : B = 0 ∨ 8388608 ≤ m) :
    ∃ m' e', (pack neg (B * 8388608 + m)).decode = FVal.fin neg m' e' ∧
      (m' : ℚ) * (2 : ℚ) ^ e' = (m : ℚ) * (2 : ℚ) ^ ((B : Int) - 149) := by
  have hbits : (pack neg (B * 8388608 + m)).bits =
      (if neg then 2147483648 else 0) + (B * 8388608 + m) := by
    simp only [pack, ofBits]
    cases neg <;> simp only [Bool.false_eq_true, if_false, if_true] <;> omega
  have hsign : (pack neg (B * 8388608 + m)).sign = neg := by
    simp only [sign, hbits]
    cases neg <;> simp only [Bool.false_eq_true, if_false, if_true, decide_eq_false_iff_not,
      decide_eq_true_eq] <;> omega
  have hexp : (pack neg (B * 8388608 + m)).expField = B + m / 8388608 := by
    simp only [expField, hbits]
    cases neg <;> simp only [Bool.false_eq_true, if_false, if_true] <;> omega
  have hman : (pack neg (B * 8388608 + m)).manField = m % 8388608 := by
    simp only [manField, hbits]
    cases neg <;> simp only [Bool.false_eq_true, if_false, if_true] <;> omega
  unfold decode
  rw [hsign, hexp, hman]
  rw [if_neg (by omega)]
  by_cases h0 : B + m / 8388608 = 0
  · rw [if_pos h0]
    have hB0 : B = 0 := by omega
    have hm0 : m % 8388608 = m := by omega
    refine ⟨_, _, rfl, ?_⟩
    rw [hm0, hB0]
    norm_num
  · rw [if_neg h0]
    refine ⟨_, _, rfl, ?_⟩
    rcases Nat.lt_or_ge m 16777216 with hlt | hge
    · have h1 : m / 8388608 = 1 := by omega
      have h2 : 8388608 + m % 8388608 = m := by omega
      rw [h1, h2]
      congr 2
      push_cast
      ring
    · have hm' : m = 16777216 := by omega
      subst hm'
      have e1 : (16777216 : Nat) / 8388608 = 2 := by norm_num
      have e2 : (16777216 : Nat) % 8388608 = 0 := by norm_num
      rw [e1, e2]
      have : ((B + 2 : Nat) : Int) - 150 = ((B : Int) - 149) + 1 := by push_cast; ring
      rw [this, zpow_add₀ (by norm_num : (2 : ℚ) ≠ 0)]
      push_cast
      ring


theorem decode_infinity (neg : Bool) : (infinity neg).decode = FVal.inf neg := by
  cases neg <;> decide

theorem decode_zero (neg : Bool) : (zero neg).decode = FVal.fin neg 0 (-149) := by
  cases neg <;> decide

theorem decode_qnan : qnan.decode = FVal.nan := by decide

theorem round_spec (neg : Bool) (n d : Nat) (e : Int) (hd : 0 < d) :
    ((round neg n d e).decode = FVal.inf neg ∧ (16777216 : ℚ) ≤ (n : ℚ) / d * (2 : ℚ) ^ e) ∨
    ∃ m' e', (round neg n d e).decode = FVal.fin neg m' e' ∧
      SameSide ((m' : ℚ) * (2 : ℚ) ^ e') ((n : ℚ) / d * (2 : ℚ) ^ e) := by
  have h2 : (0 : ℚ) < 2 := by norm_num
  have h2' : (2 : ℚ) ≠ 0 := by norm_num
  unfold round
  by_cases hn : n = 0
  · rw [if_pos hn]
    right
    refine ⟨0, -149, decode_zero neg, ?_⟩
    subst hn
    intro K _
    simp
  · rw [if_neg hn]
    simp only
    have hnpos : 0 < n := Nat.pos_of_ne_zero hn
    have hp2 := shiftFrac_pos (N := n) e hd
    have hp1 := shiftFrac_num_pos (D := d) e hnpos
    have hps := shiftFrac_spec (N := n) e hd
    generalize shiftFrac n d e = p at hp1 hp2 hps ⊢
    obtain ⟨hL1, hL2⟩ := ratLog2_spec hp1 hp2
    rw [hps] at hL1 hL2
    generalize ratLog2 p.1 p.2 = L at hL1 hL2 ⊢
    generalize hρ : (n : ℚ) / d * (2 : ℚ) ^ e = ρ at hps hL1 hL2 ⊢
    have hr2 := shiftFrac_pos (N := p.1) (23 - max L (-126)) hp2
    have hrs := shiftFrac_spec (N := p.1) (23 - max L (-126)) hp2
    rw [hps] at hrs
    generalize shiftFrac p.1 p.2 (23 - max L (-126)) = r at hr2 hrs ⊢
    have hEge : -126 ≤ max L (-126) := le_max_right _ _
    have hEL : L ≤ max L (-126) := le_max_left _ _
    have hEcase : max L (-126) = -126 ∨ max L (-126) = L := by
      rcases le_total L (-126) with h | h
      · left; exact max_eq_right h
      · right; exact max_eq_left h
    generalize max L (-126) = E at hr2 hrs hEge hEL hEcase ⊢
    have hr2q : (0 : ℚ) < (r.2 : ℚ) := by exact_mod_cast hr2
    -- the significand is at most 2^24
    have hmle : roundHalfEven r.1 r.2 ≤ 16777216 := by
      apply roundHalfEven_le hr2
      have h1 : ρ * (2 : ℚ) ^ (23 - E) < 16777216 := by
        calc ρ * (2 : ℚ) ^ (23 - E) < (2 : ℚ) ^ (L + 1) * (2 : ℚ) ^ (23 - E) :=
              mul_lt_mul_of_pos_right hL2 (zpow_pos h2 _)
          _ ≤ (2 : ℚ) ^ (E + 1) * (2 : ℚ) ^ (23 - E) :=
              mul_le_mul_of_nonneg_right
                (zpow_le_zpow_right₀ (by norm_num) (by omega)) (zpow_pos h2 _).le
          _ = (2 : ℚ) ^ (24 : Int) := by
              rw [← zpow_add₀ h2']; congr 1; ring
          _ = 16777216 := by norm_num
      rw [← hrs, div_lt_iff₀ hr2q] at h1
      have : (r.1 : ℚ) ≤ ((16777216 * r.2 : Nat) : ℚ) := by push_cast; exact h1.le
      exact_mod_cast this
    -- and at least 2^23 in a normal binade
    have hmge : E = L → 8388608 ≤ roundHalfEven r.1 r.2 := by
      intro hE
      apply le_roundHalfEven hr2
      have h1 : (8388608 : ℚ) ≤ ρ * (2 : ℚ) ^ (23 - E) := by
        calc (8388608 : ℚ) = (2 : ℚ) ^ (23 : Int) := by norm_num
          _ = (2 : ℚ) ^ E * (2 : ℚ) ^ (23 - E) := by
              rw [← zpow_add₀ h2']; congr 1; ring
          _ ≤ ρ * (2 : ℚ) ^ (23 - E) :=
              mul_le_mul_of_nonneg_right (hE ▸ hL1) (zpow_pos h2 _).le
      rw [← hrs, le_div_iff₀ hr2q] at h1
      have : ((8388608 * r.2 : Nat) : ℚ) ≤ (r.1 : ℚ) := by push_cast; exact h1
      exact_mod_cast this
    generalize hm : roundHalfEven r.1 r.2 = m at hmle hmge ⊢
    obtain ⟨B, hB⟩ := Int.eq_ofNat_of_zero_le (show 0 ≤ E + 126 by omega)
    have hBnat : (E + 126).toNat = B := by omega
    rw [hBnat]
    by_cases hov : 2139095040 ≤ B * 8388608 + m
    · rw [if_pos hov]
      left
      refine ⟨decode_infinity neg, ?_⟩
      have hE127 : 127 ≤ E := by omega
      have hEL' : E = L := by rcases hEcase with h | h <;> omega
      calc (16777216 : ℚ) = (2 : ℚ) ^ (24 : Int) := by norm_num
        _ ≤ (2 : ℚ) ^ L := zpow_le_zpow_right₀ (by norm_num) (by omega)
        _ ≤ ρ := hL1
    · rw [if_neg hov]
      right
      have hBcond : B = 0 ∨ 8388608 ≤ m := by
        rcases hEcase with h | h
        · left; omega
        · right; exact hmge h
      obtain ⟨m', e', hdec, hval⟩ := decode_pack_fin neg B m (by omega) hmle hBcond
      refine ⟨m', e', hdec, ?_⟩
      rw [hval]
      have hexp : (B : Int) - 149 = E - 23 := by omega
      rw [hexp]
      intro K hK
      have hKq : (K : ℚ) < 16777216 := by exact_mod_cast hK
      rcases le_or_lt E 23 with hE23 | hE23
      · -- quantum at most one: K is a multiple of it
        obtain ⟨j, hj⟩ := Int.eq_ofNat_of_zero_le (show 0 ≤ 23 - E by omega)
        have hKj : ((K * 2 ^ j : Nat) : ℚ) = (K : ℚ) * (2 : ℚ) ^ (23 - E) := by
          rw [hj, zpow_natCast]; push_cast; ring
        have hinv : (2 : ℚ) ^ (23 - E) * (2 : ℚ) ^ (E - 23) = 1 := by
          rw [← zpow_add₀ h2']; simp
        constructor
        · intro hb
          have h1 : ρ * (2 : ℚ) ^ (23 - E) ≤ (K : ℚ) * (2 : ℚ) ^ (23 - E) :=
            mul_le_mul_of_nonneg_right hb (zpow_pos h2 _).le
          rw [← hrs, ← hKj, div_le_iff₀ hr2q] at h1
          have h3 : r.1 ≤ K * 2 ^ j * r.2 := by exact_mod_cast h1
          have h4 := roundHalfEven_le hr2 h3
          rw [hm] at h4
          have h5 : (m : ℚ) ≤ (K : ℚ) * (2 : ℚ) ^ (23 - E) := by
            rw [← hKj]; exact_mod_cast h4
          calc (m : ℚ) * (2 : ℚ) ^ (E - 23)
              ≤ (K : ℚ) * (2 : ℚ) ^ (23 - E) * (2 : ℚ) ^ (E - 23) :=
                mul_le_mul_of_nonneg_right h5 (zpow_pos h2 _).le
            _ = K := by rw [mul_assoc, hinv, mul_one]
        · intro hb
          have h1 : (K : ℚ) * (2 : ℚ) ^ (23 - E) ≤ ρ * (2 : ℚ) ^ (23 - E) :=
            mul_le_mul_of_nonneg_right hb (zpow_pos h2 _).le
          rw [← hrs, ← hKj, le_div_iff₀ hr2q] at h1
          have h3 : K * 2 ^ j * r.2 ≤ r.1 := by exact_mod_cast h1
          have h4 := le_roundHalfEven hr2 h3
          rw [hm] at h4
          have h5 : (K : ℚ) * (2 : ℚ) ^ (23 - E) ≤ (m : ℚ) := by
            rw [← hKj]; exact_mod_cast h4
          calc (K : ℚ) = (K : ℚ) * (2 : ℚ) ^ (23 - E) * (2 : ℚ) ^ (E - 23) := by
                rw [mul_assoc, hinv, mul_one]
            _ ≤ (m : ℚ) * (2 : ℚ) ^ (E - 23) :=
                mul_le_mul_of_nonneg_right h5 (zpow_pos h2 _).le
      · -- binade at or above 2^24: both magnitudes exceed every K
        have hEL' : E = L := by rcases hEcase with h | h <;> omega
        have hρ24 : (16777216 : ℚ) ≤ ρ := by
          calc (16777216 : ℚ) = (2 : ℚ) ^ (24 : Int) := by norm_num
            _ ≤ (2 : ℚ) ^ L := zpow_le_zpow_right₀ (by norm_num) (by omega)
            _ ≤ ρ := hL1
        have hm23 := hmge hEL'
        have ha24 : (16777216 : ℚ) ≤ (m : ℚ) * (2 : ℚ) ^ (E - 23) := by
          have h6 : (8388608 : ℚ) ≤ (m : ℚ) := by exact_mod_cast hm23
          have h7 : (2 : ℚ) ≤ (2 : ℚ) ^ (E - 23) := by
            calc (2 : ℚ) = (2 : ℚ) ^ (1 : Int) := by norm_num
              _ ≤ (2 : ℚ) ^ (E - 23) := zpow_le_zpow_right₀ (by norm_num) (by omega)
          calc (16777216 : ℚ) = 8388608 * 2 := by norm_num
            _ ≤ (m : ℚ) * (2 : ℚ) ^ (E - 23) :=
                mul_le_mul h6 h7 (by norm_num) (by positivity)
        constructor
        · intro hb; linarith
        · intro _; linarith


theorem sameSide_close {a b : ℚ} (ha : 0 ≤ a) (hb : 0 ≤ b) (h : SameSide a b) (k : Int)
    (hk : k < 16777215) (hclose : |(k : ℚ) - a| < 1) : |(k : ℚ) - b| < 1 := by
  rw [abs_lt] at hclose ⊢
  obtain ⟨h1, h2⟩ := hclose
  constructor
  · -- b < k + 1
    have hk1 : (0 : ℚ) < (k : ℚ) + 1 := by linarith
    have hk1' : 0 < k + 1 := by exact_mod_cast hk1
    obtain ⟨K, hK⟩ := Int.eq_ofNat_of_zero_le hk1'.le
    have hKq : (K : ℚ) = (k : ℚ) + 1 := by
      have : ((K : Int) : ℚ) = ((k + 1 : Int) : ℚ) := by rw [hK]
      push_cast at this
      exact this
    have hlt : b < K := by
      by_contra hcon
      have := (h K (by omega)).2 (not_lt.mp hcon)
      rw [hKq] at this
      linarith
    rw [hKq] at hlt
    linarith
  · -- k - 1 < b
    rcases lt_or_le (k - 1) 0 with hneg | hpos
    · have : ((k - 1 : Int) : ℚ) < 0 := by exact_mod_cast hneg
      push_cast at this
      linarith
    · obtain ⟨K, hK⟩ := Int.eq_ofNat_of_zero_le hpos
      have hKq : (K : ℚ) = (k : ℚ) - 1 := by
        have : ((K : Int) : ℚ) = ((k - 1 : Int) : ℚ) := by rw [hK]
        push_cast at this
        exact this
      have hlt : (K : ℚ) < b := by
        by_contra hcon
        have := (h K (by omega)).1 (not_lt.mp hcon)
        rw [hKq] at this
        linarith
      rw [hKq] at hlt
      linarith

theorem truncToInt_spec {x : F32} {neg : Bool} {m : Nat} {e : Int}
    (hx : x.decode = FVal.fin neg m e) :
    ∃ mag : Nat, x.truncToInt = some (if neg then -(mag : Int) else (mag : Int)) ∧
      (mag : ℚ) ≤ (m : ℚ) * (2 : ℚ) ^ e ∧ (m : ℚ) * (2 : ℚ) ^ e < (mag : ℚ) + 1 := by
  unfold truncToInt
  rw [hx]
  simp only
  by_cases he : 0 ≤ e
  · rw [if_pos he]
    obtain ⟨k, rfl⟩ := Int.eq_ofNat_of_zero_le he
    refine ⟨m * 2 ^ k, ?_, ?_, ?_⟩
    · simp
    · simp [zpow_natCast]
    · simp [zpow_natCast]
  · rw [if_neg he]
    obtain ⟨k, hk⟩ := Int.eq_ofNat_of_zero_le (show 0 ≤ -e by omega)
    have he' : e = -(k : Int) := by omega
    subst he'
    refine ⟨m / 2 ^ k, ?_, ?_, ?_⟩
    · simp
    · rw [zpow_neg, zpow_natCast, ← div_eq_mul_inv, le_div_iff₀ (by positivity)]
      have := Nat.div_mul_le_self m (2 ^ k)
      exact_mod_cast this
    · rw [zpow_neg, zpow_natCast, ← div_eq_mul_inv, div_lt_iff₀ (by positivity)]
      have h1 : m < (m / 2 ^ k + 1) * 2 ^ k := by
        have hpos : 0 < 2 ^ k := by positivity
        have := Nat.div_add_mod m (2 ^ k)
        have := Nat.mod_lt m hpos
        nlinarith
      exact_mod_cast h1

theorem truncToInt_nan {x : F32} (hx : x.decode = FVal.nan) : x.truncToInt = none := by
  unfold truncToInt; rw [hx]

theorem truncToInt_inf {x : F32} {neg : Bool} (hx : x.decode = FVal.inf neg) :
    x.truncToInt = none := by
  unfold truncToInt; rw [hx]

theorem ofInt_spec {z : Int} (hz : z.natAbs < 16777216) :
    ∃ m e', (ofInt z).decode = FVal.fin (decide (z < 0)) m e' ∧
      (m : ℚ) * (2 : ℚ) ^ e' = (z.natAbs : ℚ) := by
  unfold ofInt
  rcases round_spec (decide (z < 0)) z.natAbs 1 0 (by decide) with ⟨_, h⟩ | ⟨m, e', hd, hs⟩
  · simp only [Nat.cast_one, div_one, zpow_zero, mul_one] at h
    have : (z.natAbs : ℚ) < 16777216 := by exact_mod_cast hz
    linarith
  · refine ⟨m, e', hd, ?_⟩
    simp only [Nat.cast_one, div_one, zpow_zero, mul_one] at hs
    obtain ⟨h1, h2⟩ := hs z.natAbs hz
    exact le_antisymm (h1 le_rfl) (h2 le_rfl)


theorem decode_of_isFinite {x : F32} (h : x.isFinite) :
    ∃ neg m e, x.decode = FVal.fin neg m e := by
  unfold isFinite at h
  unfold decode
  rw [if_neg h]
  split
  · exact ⟨_, _, _, rfl⟩
  · exact ⟨_, _, _, rfl⟩

theorem aligned_spec (neg : Bool) (m : Nat) {e g : Int} (h : g ≤ e) :
    ((aligned neg m e g : Int) : ℚ) * (2 : ℚ) ^ g
      = (if neg then -(m : ℚ) else (m : ℚ)) * (2 : ℚ) ^ e := by
  obtain ⟨k, hk⟩ := Int.eq_ofNat_of_zero_le (show 0 ≤ e - g by omega)
  have he : e = g + k := by omega
  unfold aligned
  simp only [hk, Int.toNat_ofNat]
  rw [he, zpow_add₀ (by norm_num : (2 : ℚ) ≠ 0), zpow_natCast]
  cases neg <;> simp <;> ring

theorem fadd_fin_bounded {x y : F32} {s t : Bool} {m n : Nat} {e f : Int}
    (hx : x.decode = FVal.fin s m e) (hy : y.decode = FVal.fin t n f) :
    ((∃ neg, (fadd x y).decode = FVal.inf neg) ∧
      (16777216 : ℚ) ≤ |(FVal.fin s m e).toRat + (FVal.fin t n f).toRat|) ∨
    ∃ neg' m' e', (fadd x y).decode = FVal.fin neg' m' e' ∧
      SameSide ((m' : ℚ) * (2 : ℚ) ^ e') |(FVal.fin s m e).toRat + (FVal.fin t n f).toRat| ∧
      (0 < (FVal.fin s m e).toRat + (FVal.fin t n f).toRat → neg' = false) ∧
      ((FVal.fin s m e).toRat + (FVal.fin t n f).toRat < 0 → neg' = true) := by
  have h2 : (0 : ℚ) < 2 := by norm_num
  have hc : ((aligned s m e (min e f) + aligned t n f (min e f) : Int) : ℚ) * (2 : ℚ) ^ (min e f)
      = (FVal.fin s m e).toRat + (FVal.fin t n f).toRat := by
    push_cast
    rw [add_mul, aligned_spec s m (min_le_left e f), aligned_spec t n (min_le_right e f)]
    rfl
  unfold fadd
  rw [hx, hy]
  simp only
  generalize aligned s m e (min e f) + aligned t n f (min e f) = c at hc
  generalize (FVal.fin s m e).toRat + (FVal.fin t n f).toRat = Y at hc
  by_cases hc0 : c = 0
  · rw [if_pos hc0]
    right
    refine ⟨s && t, 0, -149, decode_zero _, ?_, ?_, ?_⟩
    · subst hc0
      simp only [Int.cast_zero, zero_mul] at hc
      rw [← hc]
      intro K _
      simp
    · intro hpos
      subst hc0
      simp only [Int.cast_zero, zero_mul] at hc
      rw [← hc] at hpos
      exact absurd hpos (lt_irrefl _)
    · intro hneg
      subst hc0
      simp only [Int.cast_zero, zero_mul] at hc
      rw [← hc] at hneg
      exact absurd hneg (lt_irrefl _)
  · rw [if_neg hc0]
    have habs : ((c.natAbs : Nat) : ℚ) / ((1 : Nat) : ℚ) * (2 : ℚ) ^ (min e f) = |Y| := by
      rw [← hc, abs_mul, abs_of_pos (zpow_pos h2 _), Nat.cast_one, div_one]
      congr 1
      rw [Nat.cast_natAbs, Int.cast_abs]
    rcases round_spec (decide (c < 0)) c.natAbs 1 (min e f) (by decide) with
      ⟨hd, hbig⟩ | ⟨m', e', hd, hs⟩
    · left
      rw [habs] at hbig
      exact ⟨⟨_, hd⟩, hbig⟩
    · right
      rw [habs] at hs
      refine ⟨_, m', e', hd, hs, ?_, ?_⟩
      · intro hpos
        rw [← hc] at hpos
        have : (0 : ℚ) < (c : ℚ) := by
          by_contra hcon
          have := mul_nonpos_of_nonpos_of_nonneg (not_lt.mp hcon) (zpow_pos h2 (min e f)).le
          linarith
        have : 0 < c := by exact_mod_cast this
        simp only [decide_eq_false_iff_not, not_lt]
        omega
      · intro hneg
        rw [← hc] at hneg
        have : (c : ℚ) < 0 := by
          by_contra hcon
          have := mul_nonneg (not_lt.mp hcon) (zpow_pos h2 (min e f)).le
          linarith
        have : c < 0 := by exact_mod_cast this
        simp only [decide_eq_true_eq]
        exact this

theorem fadd_fin {x y : F32} {s t : Bool} {m n : Nat} {e f : Int}
    (hx : x.decode = FVal.fin s m e) (hy : y.decode = FVal.fin t n f) :
    (∃ neg, (fadd x y).decode = FVal.inf neg) ∨
    ∃ neg' m' e', (fadd x y).decode = FVal.fin neg' m' e' ∧
      SameSide ((m' : ℚ) * (2 : ℚ) ^ e') |(FVal.fin s m e).toRat + (FVal.fin t n f).toRat| ∧
      (0 < (FVal.fin s m e).toRat + (FVal.fin t n f).toRat → neg' = false) ∧
      ((FVal.fin s m e).toRat + (FVal.fin t n f).toRat < 0 → neg' = true) := by
  rcases fadd_fin_bounded hx hy with ⟨h, _⟩ | h
  · exact Or.inl h
  · exact Or.inr h

theorem fadd_nan_left {x y : F32} (hx : x.decode = FVal.nan) : fadd x y = qnan := by
  unfold fadd; rw [hx]; cases y.decode <;> rfl

theorem fadd_inf_fin {x y : F32} {a t : Bool} {n : Nat} {f : Int}
    (hx : x.decode = FVal.inf a) (hy : y.decode = FVal.fin t n f) :
    fadd x y = infinity a := by
  unfold fadd; rw [hx, hy]

theorem fdiv_nan_left {x y : F32} (hx : x.decode = FVal.nan) : fdiv x y = qnan := by
  unfold fdiv; rw [hx]; cases y.decode <;> rfl

theorem fdiv_inf_fin {x y : F32} {a t : Bool} {n : Nat} {f : Int}
    (hx : x.decode = FVal.inf a) (hy : y.decode = FVal.fin t n f) :
    fdiv x y = infinity (xor a t) := by
  unfold fdiv; rw [hx, hy]

theorem fdiv_fin_fin {x y : F32} {s t : Bool} {m n : Nat} {e f : Int}
    (hx : x.decode = FVal.fin s m e) (hy : y.decode = FVal.fin t n f) :
    fdiv x y = if n = 0 then (if m = 0 then qnan else infinity (xor s t))
      else round (xor s t) m n (e - f) := by
  unfold fdiv; rw [hx, hy]

theorem toRat_div {sv ss : Bool} {mv ms : Nat} {ev es : Int} (hms : ms ≠ 0) :
    (FVal.fin sv mv ev).toRat
      = (if xor sv ss then -((mv : ℚ) / ms * (2 : ℚ) ^ (ev - es))
          else (mv : ℚ) / ms * (2 : ℚ) ^ (ev - es)) * (FVal.fin ss ms es).toRat := by
  have hms' : (ms : ℚ) ≠ 0 := by exact_mod_cast hms
  have h2 : (2 : ℚ) ≠ 0 := by norm_num
  have hz : (2 : ℚ) ^ (ev - es) * (2 : ℚ) ^ es = (2 : ℚ) ^ ev := by
    rw [← zpow_add₀ h2]; congr 1; ring
  simp only [FVal.toRat]
  cases sv <;> cases ss <;> simp <;> rw [← hz] <;> field_simp <;> ring

end F32

theorem quantize_close {s v : F32} {z : I8} {q : Int} (hfin : s.isFinite)
    (hq : quantize_target s z v = some q) (hlo : -128 ≤ q) (hhi : q ≤ 127) :
    |((q - z.val : Int) : ℚ) * s.toRat - v.toRat| < |s.toRat| := by
  have h2 : (0 : ℚ) < 2 := by norm_num
  obtain ⟨ss, ms, es, hs⟩ := F32.decode_of_isFinite hfin
  have hzabs : z.val.natAbs < 16777216 := by have := z.lo; have := z.hi; omega
  obtain ⟨mz, ez, hzd, hzv⟩ := F32.ofInt_spec hzabs
  unfold quantize_target at hq
  -- the sum is finite, so the quotient is
  cases hv : v.decode with
  | nan =>
    rw [F32.fdiv_nan_left hv, F32.fadd_nan_left F32.decode_qnan,
      F32.truncToInt_nan F32.decode_qnan] at hq
    cases hq
  | inf a =>
    rw [F32.fdiv_inf_fin hv hs, F32.fadd_inf_fin (F32.decode_infinity _) hzd,
      F32.truncToInt_inf (F32.decode_infinity _)] at hq
    cases hq
  | fin sv mv ev =>
    rw [F32.fdiv_fin_fin hv hs] at hq
    by_cases hms : ms = 0
    · rw [if_pos hms] at hq
      by_cases hmv : mv = 0
      · rw [if_pos hmv, F32.fadd_nan_left F32.decode_qnan,
          F32.truncToInt_nan F32.decode_qnan] at hq
        cases hq
      · rw [if_neg hmv, F32.fadd_inf_fin (F32.decode_infinity _) hzd,
          F32.truncToInt_inf (F32.decode_infinity _)] at hq
        cases hq
    · rw [if_neg hms] at hq
      have hmspos : 0 < ms := Nat.pos_of_ne_zero hms
      rcases F32.round_spec (xor sv ss) mv ms (ev - es) hmspos with
        ⟨hxd, _⟩ | ⟨mx, ex, hxd, hxs⟩
      · rw [F32.fadd_inf_fin hxd hzd, F32.truncToInt_inf (F32.decode_infinity _)] at hq
        cases hq
      · generalize F32.round (xor sv ss) mv ms (ev - es) = x at hq hxd
        rcases F32.fadd_fin hxd hzd with ⟨neg, hwd⟩ | ⟨nw, mw, ew, hwd, hws, hwpos, hwneg⟩
        · rw [F32.truncToInt_inf hwd] at hq
          cases hq
        · obtain ⟨mag, htr, hmag1, hmag2⟩ := F32.truncToInt_spec hwd
          rw [htr] at hq
          simp only [Option.some.injEq] at hq
          -- the value of the zero point
          have hZ : (FVal.fin (decide (z.val < 0)) mz ez).toRat = (z.val : ℚ) := by
            simp only [FVal.toRat]
            by_cases hzn : z.val < 0
            · simp only [hzn, decide_True, if_true, neg_mul, hzv]
              rw [Nat.cast_natAbs, abs_of_neg hzn]
              push_cast
              ring
            · simp only [hzn, decide_False, Bool.false_eq_true, if_false, hzv]
              rw [Nat.cast_natAbs, abs_of_nonneg (not_lt.mp hzn)]
          rw [hZ] at hws hwpos hwneg
          generalize hX : (FVal.fin (xor sv ss) mx ex).toRat = X at hws hwpos hwneg
          -- step 1: the stored integer is within one of the exact sum
          have hmagq : |((mag : Int) : ℚ) - (mw : ℚ) * (2 : ℚ) ^ ew| < 1 := by
            rw [abs_lt]; push_cast; constructor <;> linarith
          have hmaglt : (mag : Int) < 16777215 := by
            split at hq <;> omega
          have h1 := F32.sameSide_close (by positivity) (abs_nonneg _) hws (mag : Int)
            hmaglt hmagq
          have hqY : |(q : ℚ) - (X + z.val)| < 1 := by
            rcases lt_trichotomy (X + (z.val : ℚ)) 0 with hY | hY | hY
            · have hn := hwneg hY
              rw [hn] at hq
              simp only [if_true] at hq
              rw [← hq, abs_of_neg hY] at *
              push_cast at h1 ⊢
              rw [abs_lt] at h1 ⊢
              constructor <;> linarith [h1.1, h1.2]
            · rw [hY, abs_zero, sub_zero] at h1
              have hm0 : (mag : Int) = 0 := by
                have h3 : |(mag : Int)| < 1 := by exact_mod_cast h1
                rw [abs_lt] at h3
                omega
              have hq0 : q = 0 := by
                rw [hm0] at hq
                split at hq <;> omega
              rw [hY, hq0]
              simp
            · have hn := hwpos hY
              rw [hn] at hq
              simp only [Bool.false_eq_true, if_false] at hq
              rw [← hq, abs_of_pos hY] at *
              exact h1
          -- step 2 and 3: the dequantised integer is within one of the quotient
          have hkX : |((q - z.val : Int) : ℚ) - X| < 1 := by
            have : ((q - z.val : Int) : ℚ) - X = (q : ℚ) - (X + z.val) := by
              push_cast; ring
            rw [this]; exact hqY
          have hzlo := z.lo
          have hzhi := z.hi
          generalize hk : q - z.val = k at hkX
          have hkhi : k < 16777215 := by omega
          have hklo : -k < 16777215 := by omega
          have hbnn : (0 : ℚ) ≤ (mv : ℚ) / ms * (2 : ℚ) ^ (ev - es) := by positivity
          generalize hb : (mv : ℚ) / ms * (2 : ℚ) ^ (ev - es) = b at hxs hbnn
          have hkP : |(k : ℚ) - (if xor sv ss then -b else b)| < 1 := by
            rw [← hX] at hkX
            simp only [FVal.toRat] at hkX
            cases hσ : xor sv ss
            · rw [hσ] at hkX
              simp only [Bool.false_eq_true, if_false] at hkX ⊢
              exact F32.sameSide_close (by positivity) hbnn hxs k hkhi hkX
            · rw [hσ] at hkX
              simp only [if_true] at hkX ⊢
              have h3 : |((-k : Int) : ℚ) - (mx : ℚ) * (2 : ℚ) ^ ex| < 1 := by
                rw [← abs_neg]
                have : -(((-k : Int) : ℚ) - (mx : ℚ) * (2 : ℚ) ^ ex)
                    = (k : ℚ) - -(mx : ℚ) * (2 : ℚ) ^ ex := by push_cast; ring
                rw [this]; exact hkX
              have h4 := F32.sameSide_close (by positivity) hbnn hxs (-k) hklo h3
              rw [← abs_neg] at h4
              have : -(((-k : Int) : ℚ) - b) = (k : ℚ) - -b := by push_cast; ring
              rw [this] at h4
              exact h4
          -- step 4: scale back
          have hVS := @F32.toRat_div sv ss mv ms ev es hms
          rw [hb] at hVS
          have hSne : (FVal.fin ss ms es).toRat ≠ 0 := by
            simp only [FVal.toRat]
            have hms' : (ms : ℚ) ≠ 0 := by exact_mod_cast hms
            have hp : (2 : ℚ) ^ es ≠ 0 := zpow_ne_zero es (by norm_num)
            cases ss <;> simp [hms', hp]
          unfold F32.toRat
          rw [hv, hs, hVS, ← sub_mul, abs_mul]
          calc |(k : ℚ) - (if xor sv ss then -b else b)| * |(FVal.fin ss ms es).toRat|
              < 1 * |(FVal.fin ss ms es).toRat| :=
                mul_lt_mul_of_pos_right hkP (abs_pos.mpr hSne)
            _ = |(FVal.fin ss ms es).toRat| := one_mul _

/-! ## The write path -/

theorem set_element_f32_write {t t' : TinyTensor} {i : Nat} {v : F32}
    (hi : i < t.length) (h : set_element_f32 t i v = some t') :
    ∃ buf bs buf', t.data = some buf ∧ bs.length = element_size t.type ∧
      writeBytes buf (element_size t.type * i) bs = some buf' ∧
      t' = { t with data := some buf' } := by
  unfold set_element_f32 at h
  rw [if_neg (by omega)] at h
  cases hd : t.data with
  | none =>
    cases ht : t.type <;>
      simp [ht, hd, store_f32, store_i8, store_u16] at h <;>
      (split at h <;> simp at h)
  | some buf =>
    cases ht : t.type with
    | DTYPE_F32 =>
      simp only [ht, hd, store_f32, if_true] at h
      split at h
      · cases h
      · rename_i d hw
        cases h
        exact ⟨buf, v.toBytes, d, rfl, rfl, hw, rfl⟩
    | DTYPE_I8 =>
      simp only [ht, hd, store_i8, if_true, reduceCtorEq, if_false] at h
      split at h
      · cases h
      · rename_i q hq
        split at h
        · cases h
        · rename_i d hw
          cases h
          refine ⟨buf, [q.toByte], d, rfl, rfl, ?_, rfl⟩
          simpa [element_size] using hw
    | DTYPE_F16 =>
      simp only [ht, hd, store_u16, if_true, reduceCtorEq, if_false] at h
      split at h
      · cases h
      · rename_i n hn
        split at h
        · cases h
        · rename_i d hw
          cases h
          exact ⟨buf, u16ToBytes n, d, rfl, rfl, hw, rfl⟩

theorem set_element_f32_defined {t : TinyTensor} {i : Nat} {v : F32}
    (hv : t.Valid) (hi : i < t.length) (hs : t.Storable v) :
    ∃ t', set_element_f32 t i v = some t' := by
  obtain ⟨buf, hbuf, hlen⟩ := hv
  unfold set_element_f32
  rw [if_neg (by omega)]
  unfold TinyTensor.Storable at hs
  cases ht : t.type with
  | DTYPE_F32 =>
    rw [ht] at hlen
    have hle : 4 * i + v.toBytes.length ≤ buf.length := by
      rw [F32.toBytes_length, hlen]; simp only [element_size]; omega
    obtain ⟨buf', hw⟩ := writeBytes_isSome hle
    exact ⟨{ t with data := some buf' }, by simp [store_f32, hbuf, hw, ht]⟩
  | DTYPE_I8 =>
    rw [ht] at hlen hs
    simp only at hs
    obtain ⟨q, hq⟩ := Option.ne_none_iff_exists'.mp hs
    have hle : i + [q.toByte].length ≤ buf.length := by
      rw [hlen]; simp only [element_size, List.length_singleton]; omega
    obtain ⟨buf', hw⟩ := writeBytes_isSome hle
    exact ⟨{ t with data := some buf' }, by simp [store_i8, hbuf, hw, hq, ht]⟩
  | DTYPE_F16 =>
    rw [ht] at hlen hs
    simp only at hs
    obtain ⟨n, hn⟩ := Option.ne_none_iff_exists'.mp hs
    have hle : 2 * i + (u16ToBytes n).length ≤ buf.length := by
      rw [hlen]; simp only [element_size, u16ToBytes, List.length_cons, List.length_nil]; omega
    obtain ⟨buf', hw⟩ := writeBytes_isSome hle
    exact ⟨{ t with data := some buf' }, by simp [store_u16, hbuf, hw, hn, ht]⟩

theorem get_element_f32_congr {t t' : TinyTensor} {j : Nat}
    (hl : t'.length = t.length) (ht : t'.type = t.type) (hs : t'.scale = t.scale)
    (hz : t'.zero_point = t.zero_point) (he : t'.element_bytes j = t.element_bytes j) :
    get_element_f32 t' j = get_element_f32 t j := by
  unfold get_element_f32
  rw [hl, ht, hs, hz]
  unfold TinyTensor.element_bytes at he
  rw [ht] at he
  cases hty : t.type <;> simp only [hty, element_size, one_mul, if_true, reduceCtorEq, if_false]
    <;> rw [hty] at he <;> simp only [element_size, one_mul] at he
  · congr 1
    unfold load_f32
    cases hd' : t'.data <;> cases hd : t.data <;> simp only [hd', hd] at he ⊢
    · unfold readBytes at he ⊢
      split at he
      · cases he
      · rename_i hn
        rw [if_neg hn]
    · unfold readBytes at he ⊢
      split at he
      · cases he
      · rename_i hn
        rw [if_neg hn]
    · rw [he]
  · congr 1
    unfold load_i8
    cases hd' : t'.data <;> cases hd : t.data <;> simp only [hd', hd] at he ⊢
    · unfold readBytes at he ⊢
      split at he
      · cases he
      · rename_i hn
        rw [if_neg hn]
    · unfold readBytes at he ⊢
      split at he
      · cases he
      · rename_i hn
        rw [if_neg hn]
    · rw [he]

theorem Op.apply_preserves {t t' : TinyTensor} {op : Op} (hv : t.Valid)
    (h : op.apply t = some t') : t'.Valid ∧ t'.length = t.length ∧ t'.type = t.type := by
  cases op with
  | set index value =>
    simp only [Op.apply] at h
    by_cases hi : index < t.length
    · obtain ⟨buf, bs, buf', hbuf, _, hw, rfl⟩ := set_element_f32_write hi h
      obtain ⟨buf0, hbuf0, hlen⟩ := hv
      rw [hbuf] at hbuf0
      cases hbuf0
      exact ⟨⟨buf', rfl, by rw [writeBytes_length hw]; exact hlen⟩, rfl, rfl⟩
    · unfold set_element_f32 at h
      rw [if_pos (by omega)] at h
      cases h
      exact ⟨hv, rfl, rfl⟩
  | setScale s =>
    simp only [Op.apply] at h
    cases h
    exact ⟨hv, rfl, rfl⟩
  | setZeroPoint z =>
    simp only [Op.apply] at h
    cases h
    exact ⟨hv, rfl, rfl⟩

theorem run_preserves {ops : List Op} {t t' : TinyTensor} (hv : t.Valid)
    (h : run t ops = some t') : t'.Valid ∧ t'.length = t.length ∧ t'.type = t.type := by
  induction ops generalizing t with
  | nil =>
    simp only [run] at h
    cases h
    exact ⟨hv, rfl, rfl⟩
  | cons op ops ih =>
    simp only [run] at h
    cases ha : op.apply t with
    | none => rw [ha] at h; cases h
    | some t1 =>
      rw [ha] at h
      obtain ⟨hv1, hl1, ht1⟩ := Op.apply_preserves hv ha
      obtain ⟨hv2, hl2, ht2⟩ := ih hv1 h
      exact ⟨hv2, hl2.trans hl1, ht2.trans ht1⟩

theorem wrapInt8_val_of_range {q : Int} (hlo : -128 ≤ q) (hhi : q ≤ 127) :
    (wrapInt8 q).val = q := by
  simp only [wrapInt8]
  omega

theorem get_set_i8 {t : TinyTensor} {i : Nat} {v : F32} {q : Int}
    (ht : t.type = TensorType.DTYPE_I8) (hv : t.Valid) (hi : i < t.length)
    (hq : quantize_target t.scale t.zero_point v = some q) (hlo : -128 ≤ q) (hhi : q ≤ 127) :
    ∃ t', set_element_f32 t i v = some t' ∧
      get_element_f32 t' i = some (F32.fmul (F32.ofInt (q - t.zero_point.val)) t.scale) := by
  obtain ⟨buf, hbuf, hlen⟩ := hv
  rw [ht] at hlen
  have h8 : (F32.fadd (F32.fdiv v t.scale) (F32.ofInt t.zero_point.val)).toInt8
      = some (wrapInt8 q) := by
    unfold quantize_target at hq
    unfold F32.toInt8
    rw [hq]
    simp only
    rw [if_pos (by constructor <;> omega)]
  have hle : i + [(wrapInt8 q).toByte].length ≤ buf.length := by
    rw [hlen]; simp only [element_size, List.length_singleton]; omega
  obtain ⟨buf', hw⟩ := writeBytes_isSome hle
  refine ⟨{ t with data := some buf' }, ?_, ?_⟩
  · unfold set_element_f32
    rw [if_neg (by omega)]
    simp only [ht, reduceCtorEq, if_false, if_true, h8, store_i8, hbuf, hw]
  · unfold get_element_f32
    rw [if_neg (by simp only [ge_iff_le]; omega)]
    have hr := readBytes_writeBytes_same hw
    simp only [List.length_singleton] at hr
    simp only [ht, reduceCtorEq, if_false, if_true, load_i8, hr, I8.ofByte_toByte,
      wrapInt8_val_of_range hlo hhi]

theorem F32.fmul_ofInt {k : Int} {s : F32} {ss : Bool} {ms : Nat} {es : Int}
    (hk : k.natAbs < 16777216) (hs : s.decode = FVal.fin ss ms es) :
    ∃ neg n e, F32.fmul (F32.ofInt k) s = F32.round neg n 1 e ∧
      (if neg then -(n : ℚ) else (n : ℚ)) * (2 : ℚ) ^ e = (k : ℚ) * s.toRat := by
  obtain ⟨mk, ek, hkd, hkv⟩ := F32.ofInt_spec hk
  refine ⟨xor (decide (k < 0)) ss, mk * ms, ek + es, ?_, ?_⟩
  · unfold F32.fmul
    rw [hkd, hs]
  · unfold F32.toRat
    rw [hs]
    simp only [FVal.toRat]
    rw [zpow_add₀ (by norm_num : (2 : ℚ) ≠ 0)]
    have hkq : (k : ℚ) = (if decide (k < 0) then -(mk : ℚ) else (mk : ℚ)) * (2 : ℚ) ^ ek := by
      by_cases hn : k < 0
      · simp only [hn, decide_True, if_true, neg_mul, hkv]
        rw [Nat.cast_natAbs, abs_of_neg hn]
        push_cast
        ring
      · simp only [hn, decide_False, Bool.false_eq_true, if_false, hkv]
        rw [Nat.cast_natAbs, abs_of_nonneg (not_lt.mp hn)]
    rw [hkq]
    cases decide (k < 0) <;> cases ss <;> simp <;> ring

/-! ## Creation (C1) -/

/-- C1: for every length `n` and encoding `e`, when both allocations succeed
`create_tensor` yields a tensor with `length = n`, `type = e`, `scale = 1.0f`
(the float `2^23 * 2^-23`), `zero_point = 0` and a buffer of exactly
`n * element_size e` bytes, all zero, the element size being 4, 2 and 1 for
`DTYPE_F32`, `DTYPE_F16` and `DTYPE_I8`. -/
theorem create_tensor_spec (h : Heap) (n : Nat) (e : TensorType)
    (hm : h.mallocOk = true) (hc : h.callocOk = true) :
    ∃ t buf, create_tensor h n e = some t ∧ t.length = n ∧ t.type = e ∧
      t.scale = F32.one ∧ F32.one.decode = FVal.fin false 8388608 (-23) ∧
      t.zero_point.val = 0 ∧
      t.data = some buf ∧ buf.length = n * element_size e ∧ (∀ b ∈ buf, b = 0) ∧
      element_size TensorType.DTYPE_F32 = 4 ∧ element_size TensorType.DTYPE_F16 = 2 ∧
      element_size TensorType.DTYPE_I8 = 1 := by
  refine ⟨⟨e, n, some (List.replicate (n * element_size e) 0), F32.one, I8.zero⟩,
    List.replicate (n * element_size e) 0, ?_, rfl, rfl, rfl, by decide, rfl, rfl,
    List.length_replicate _ _, ?_, rfl, rfl, rfl⟩
  · simp [create_tensor, calloc, hm, hc]
  · intro b hb
    exact List.eq_of_mem_replicate hb

theorem create_tensor_spec_witness :
    ∃ t buf, create_tensor ⟨true, true⟩ 3 TensorType.DTYPE_F16 = some t ∧ t.length = 3 ∧
      t.type = TensorType.DTYPE_F16 ∧
      t.scale = F32.one ∧ F32.one.decode = FVal.fin false 8388608 (-23) ∧
      t.zero_point.val = 0 ∧
      t.data = some buf ∧ buf.length = 3 * element_size TensorType.DTYPE_F16 ∧
      (∀ b ∈ buf, b = 0) ∧
      element_size TensorType.DTYPE_F32 = 4 ∧ element_size TensorType.DTYPE_F16 = 2 ∧
      element_size TensorType.DTYPE_I8 = 1 :=
  create_tensor_spec ⟨true, true⟩ 3 TensorType.DTYPE_F16 rfl rfl

/-! ## Float32 round trip (C2) -/

/-- C2: for every `DTYPE_F32` tensor with a buffer of `length * 4` bytes,
every index `i < length` and every float `v`, the write succeeds and reading
index `i` back returns `v`, bit for bit. -/
theorem get_set_f32_roundtrip (t : TinyTensor) (i : Nat) (v : F32)
    (ht : t.type = TensorType.DTYPE_F32) (hv : t.Valid) (hi : i < t.length) :
    ∃ t', set_element_f32 t i v = some t' ∧ get_element_f32 t' i = some v := by
  obtain ⟨buf, hbuf, hlen⟩ := hv
  rw [ht] at hlen
  have hle : 4 * i + v.toBytes.length ≤ buf.length := by
    rw [F32.toBytes_length, hlen]; simp only [element_size]; omega
  obtain ⟨buf', hw⟩ := writeBytes_isSome hle
  refine ⟨{ t with data := some buf' }, ?_, ?_⟩
  · unfold set_element_f32
    rw [if_neg (by omega), if_pos ht]
    simp only [store_f32, hbuf, hw]
  · unfold get_element_f32
    rw [if_neg (by simp only [ge_iff_le]; omega), if_pos ht]
    have hr := readBytes_writeBytes_same hw
    rw [F32.toBytes_length] at hr
    simp only [load_f32, hr, F32.ofBytes_toBytes]

theorem get_set_f32_roundtrip_witness :
    ∃ t', set_element_f32
        ⟨TensorType.DTYPE_F32, 2, some (List.replicate 8 0), F32.one, I8.zero⟩ 1
        (F32.ofDecimal true 3 10) = some t' ∧
      get_element_f32 t' 1 = some (F32.ofDecimal true 3 10) :=
  get_set_f32_roundtrip ⟨TensorType.DTYPE_F32, 2, some (List.replicate 8 0), F32.one, I8.zero⟩
    1 (F32.ofDecimal true 3 10) rfl ⟨List.replicate 8 0, rfl, rfl⟩ (by decide)

/-! ## Quantised round trip (C3) -/

/-- C3 (amended): for every `DTYPE_I8` tensor with a buffer of `length` bytes,
every index `i < length` and every value `v` for which the integral part `q`
of the float sum `v / scale + zero_point` lies within `[-128, 127]`, the
write succeeds and reading index `i` back returns the float product
`(float)(q - zero_point) * scale`. -/
theorem get_set_i8_roundtrip (t : TinyTensor) (i : Nat) (v : F32) (q : Int)
    (ht : t.type = TensorType.DTYPE_I8) (hv : t.Valid) (hi : i < t.length)
    (hq : quantize_target t.scale t.zero_point v = some q) (hlo : -128 ≤ q) (hhi : q ≤ 127) :
    ∃ t', set_element_f32 t i v = some t' ∧
      get_element_f32 t' i = some (F32.fmul (F32.ofInt (q - t.zero_point.val)) t.scale) :=
  get_set_i8 ht hv hi hq hlo hhi

set_option maxRecDepth 100000 in
theorem get_set_i8_roundtrip_witness :
    ∃ t', set_element_f32 offset_tensor 0 (F32.ofDecimal true 1 2) = some t' ∧
      get_element_f32 t' 0 =
        some (F32.fmul (F32.ofInt (0 - offset_tensor.zero_point.val)) offset_tensor.scale) :=
  get_set_i8_roundtrip offset_tensor 0 (F32.ofDecimal true 1 2) 0 rfl
    ⟨[byteOf 0], rfl, rfl⟩ (by decide) (by decide) (by decide) (by decide)

set_option maxRecDepth 100000 in
/-- C3 (as stated) fails: with `scale = 1.0f`, `zero_point = 1` and
`v = -0.5f` the specification's target `round_toward_zero(v / s) + z` is
`0 + 1 = 1`, inside `[-128, 127]`, so the claim promises
`((1) - 1) * 1.0f = 0.0f`; the code truncates the sum `-0.5f + 1.0f = 0.5f`
to `0`, stores `0` and reads back `(0 - 1) * 1.0f = -1.0f`. -/
theorem get_set_i8_spec_target_counterexample :
    offset_tensor.type = TensorType.DTYPE_I8 ∧ offset_tensor.Valid ∧ 0 < offset_tensor.length ∧
    spec_quantize_target offset_tensor.scale offset_tensor.zero_point (F32.ofDecimal true 1 2)
      = some 1 ∧
    ∃ t', set_element_f32 offset_tensor 0 (F32.ofDecimal true 1 2) = some t' ∧
      load_i8 t'.data 0 = some I8.zero ∧
      get_element_f32 t' 0 = some (F32.ofInt (-1)) ∧
      get_element_f32 t' 0 ≠
        some (F32.fmul (F32.ofInt (1 - offset_tensor.zero_point.val)) offset_tensor.scale) := by
  refine ⟨rfl, ⟨[byteOf 0], rfl, rfl⟩, by decide, by decide,
    ⟨TensorType.DTYPE_I8, 1, some [byteOf 0], F32.one, ⟨1, by decide, by decide⟩⟩,
    by decide, by decide, by decide, by decide⟩

/-! ## Quantisation step (C4) -/

/-- C4 (amended): for every `DTYPE_I8` tensor with a finite scale and a buffer
of `length` bytes, every index `i < length` and every value `v` for which the
integral part `q` of the float sum `v / scale + zero_point` lies within
`[-128, 127]`, the write succeeds, reading index `i` back returns the
round-to-nearest-even float32 image of the exact product
`(q - zero_point) * scale`, and that exact product differs from `v` by less
than `|scale|`. -/
theorem get_set_i8_within_step (t : TinyTensor) (i : Nat) (v : F32) (q : Int)
    (ht : t.type = TensorType.DTYPE_I8) (hv : t.Valid) (hi : i < t.length)
    (hfin : t.scale.isFinite)
    (hq : quantize_target t.scale t.zero_point v = some q) (hlo : -128 ≤ q) (hhi : q ≤ 127) :
    ∃ t' neg n e, set_element_f32 t i v = some t' ∧
      get_element_f32 t' i = some (F32.round neg n 1 e) ∧
      (if neg then -(n : ℚ) else (n : ℚ)) * (2 : ℚ) ^ e
        = ((q - t.zero_point.val : Int) : ℚ) * t.scale.toRat ∧
      |((q - t.zero_point.val : Int) : ℚ) * t.scale.toRat - v.toRat| < |t.scale.toRat| := by
  obtain ⟨t', hset, hget⟩ := get_set_i8 ht hv hi hq hlo hhi
  obtain ⟨ss, ms, es, hs⟩ := F32.decode_of_isFinite hfin
  have hk : (q - t.zero_point.val).natAbs < 16777216 := by
    have := t.zero_point.lo; have := t.zero_point.hi; omega
  obtain ⟨neg, n, e, hmul, hval⟩ := F32.fmul_ofInt hk hs
  exact ⟨t', neg, n, e, hset, by rw [hget, hmul], hval, quantize_close hfin hq hlo hhi⟩

set_option maxRecDepth 100000 in
theorem get_set_i8_within_step_witness :
    ∃ t' neg n e, set_element_f32 step_tensor 0 step_value = some t' ∧
      get_element_f32 t' 0 = some (F32.round neg n 1 e) ∧
      (if neg then -(n : ℚ) else (n : ℚ)) * (2 : ℚ) ^ e
        = ((0 - step_tensor.zero_point.val : Int) : ℚ) * step_tensor.scale.toRat ∧
      |((0 - step_tensor.zero_point.val : Int) : ℚ) * step_tensor.scale.toRat
          - step_value.toRat| < |step_tensor.scale.toRat| :=
  get_set_i8_within_step step_tensor 0 step_value 0 rfl ⟨[byteOf 0], rfl, rfl⟩ (by decide)
    (by decide) (by decide) (by decide) (by decide)

set_option maxRecDepth 100000 in
/-- C4 (as stated) fails, even for a positive scale: with
`scale = 9227463 * 2^-23`, `zero_point = -15` and `v = 16148061 * 2^-20` the
specification's target `round_toward_zero(v / s) + z` is `14 - 15 = -1`,
inside `[-128, 127]`; the code stores `0` and reads back
`fl(15 * scale) = 8650747 * 2^-19`, which exceeds `v` by
`9227464 * 2^-23`, one unit in the last place more than `scale`. -/
theorem get_set_i8_step_counterexample :
    step_tensor.type = TensorType.DTYPE_I8 ∧ step_tensor.Valid ∧ 0 < step_tensor.length ∧
    0 < step_tensor.scale.toRat ∧
    spec_quantize_target step_tensor.scale step_tensor.zero_point step_value = some (-1) ∧
    ∃ t' r, set_element_f32 step_tensor 0 step_value = some t' ∧
      get_element_f32 t' 0 = some r ∧ r.isFinite ∧
      ¬ |r.toRat - step_value.toRat| ≤ step_tensor.scale.toRat := by
  have hs : step_tensor.scale.decode = FVal.fin false 9227463 (-23) := by decide
  have hv : step_value.decode = FVal.fin false 16148061 (-20) := by decide
  have hr : (F32.ofBits 1099169787).decode = FVal.fin false 8650747 (-19) := by decide
  refine ⟨rfl, ⟨[byteOf 0], rfl, rfl⟩, by decide, ?_, by decide,
    ⟨TensorType.DTYPE_I8, 1, some [byteOf 0], F32.ofBits 1066192071,
      ⟨-15, by decide, by decide⟩⟩, F32.ofBits 1099169787, by decide, by decide, by decide, ?_⟩
  · unfold F32.toRat
    rw [hs]
    simp only [FVal.toRat]
    norm_num
  · unfold F32.toRat
    rw [hs, hv, hr]
    simp only [FVal.toRat]
    norm_num
    rw [abs_of_pos (by norm_num)]
    norm_num

set_option maxRecDepth 100000 in
/-- The specification's target can lie inside `[-128, 127]` while the sum the
code truncates does not: with `scale = 1.0f`, `zero_point = 100` and
`v = 28 - 2^-19`, `round_toward_zero(v / s) + z` is `27 + 100 = 127`, but the
float sum `v / s + 100` rounds up to `128.0f`, so the code stores
`(int8_t)128 = -128` and reads back `(-128 - 100) * 1.0f = -228.0f`. -/
theorem spec_target_in_range_sum_saturates :
    spec_quantize_target high_offset_tensor.scale high_offset_tensor.zero_point
        (F32.round false 14680063 1 (-19)) = some 127 ∧
    quantize_target high_offset_tensor.scale high_offset_tensor.zero_point
        (F32.round false 14680063 1 (-19)) = some 128 ∧
    ∃ t', set_element_f32 high_offset_tensor 0 (F32.round false 14680063 1 (-19)) = some t' ∧
      (∃ q, load_i8 t'.data 0 = some q ∧ q.val = -128) ∧
      get_element_f32 t' 0 = some (F32.ofInt (-228)) := by
  refine ⟨by decide, by decide,
    ⟨TensorType.DTYPE_I8, 1, some [byteOf 128], F32.one, ⟨100, by decide, by decide⟩⟩,
    by decide, ⟨wrapInt8 128, by decide, by decide⟩, by decide⟩

/-! ## Out-of-range indices (C5, C6) -/

/-- C5: for every tensor (any encoding, scale, zero point and buffer, even a
null one) and every index `i ≥ length`, `get_element_f32` returns `0.0f`. -/
theorem get_element_f32_out_of_range (t : TinyTensor) (i : Nat) (hi : t.length ≤ i) :
    get_element_f32 t i = some (F32.zero false) ∧ (F32.zero false).bits = 0 := by
  refine ⟨?_, rfl⟩
  unfold get_element_f32
  rw [if_pos hi]

theorem get_element_f32_out_of_range_witness :
    get_element_f32 ⟨TensorType.DTYPE_I8, 2, some [byteOf 7, byteOf 9], F32.one, I8.zero⟩ 2
        = some (F32.zero false) ∧ (F32.zero false).bits = 0 :=
  get_element_f32_out_of_range _ 2 (Nat.le_refl 2)

/-- C6: for every tensor, every index `i ≥ length` and every value,
`set_element_f32` returns the tensor it was given: buffer, length, encoding,
scale and zero point are all as before. -/
theorem set_element_f32_out_of_range (t : TinyTensor) (i : Nat) (v : F32)
    (hi : t.length ≤ i) : set_element_f32 t i v = some t := by
  unfold set_element_f32
  rw [if_pos hi]

theorem set_element_f32_out_of_range_witness :
    set_element_f32 ⟨TensorType.DTYPE_I8, 2, some [byteOf 7, byteOf 9], F32.one, I8.zero⟩ 5
        F32.one
      = some ⟨TensorType.DTYPE_I8, 2, some [byteOf 7, byteOf 9], F32.one, I8.zero⟩ :=
  set_element_f32_out_of_range _ 5 F32.one (by decide)

/-! ## The demonstration of `main` (C7) -/

set_option maxRecDepth 100000 in
/-- C7: in `main`'s scenario (an `DTYPE_I8` tensor of length 10, `scale = 0.05f`,
`zero_point = 0`), `set_element_f32(t, 0, 12.5f)` forms the float `250.0f`,
stores the `int8_t` value `-6` (the byte 250) at element 0, and
`get_element_f32(t, 0)` then returns `(float)(-6) * 0.05f`, which is the float
nearest to `-0.30`. -/
theorem main_scenario :
    ∃ t, main_layer ⟨true, true⟩ = some t ∧
      F32.fadd (F32.fdiv (F32.ofDecimal false 125 10) (F32.ofDecimal false 5 100))
          (F32.ofInt 0) = F32.ofInt 250 ∧
      t.data = some (byteOf 250 :: List.replicate 9 0) ∧
      (∃ q, load_i8 t.data 0 = some q ∧ q.val = -6) ∧
      t.length = 10 ∧ t.scale = F32.ofDecimal false 5 100 ∧ t.zero_point.val = 0 ∧
      get_element_f32 t 0 = some (F32.fmul (F32.ofInt (-6)) (F32.ofDecimal false 5 100)) ∧
      get_element_f32 t 0 = some (F32.ofDecimal true 30 100) := by
  refine ⟨⟨TensorType.DTYPE_I8, 10, some (byteOf 250 :: List.replicate 9 0),
    F32.ofDecimal false 5 100, I8.zero⟩, by decide, by decide, rfl,
    ⟨wrapInt8 250, by decide, by decide⟩, rfl, rfl, rfl, by decide, by decide⟩

/-! ## Allocation failure (C8) -/

/-- C8 (the code's behaviour): when `malloc` succeeds and `calloc` fails,
`create_tensor` does not return `NULL`: it returns a descriptor whose `data`
is the null pointer. -/
theorem create_tensor_calloc_failure (n : Nat) (e : TensorType) :
    create_tensor ⟨true, false⟩ n e =
      some { type := e, length := n, data := none, scale := F32.one, zero_point := I8.zero } := by
  rfl

/-! ## Frame (C9) -/

/-- C9: for every tensor with a buffer of `length * element_size` bytes, every
index `i < length` and every value the encoding can convert,
`set_element_f32` returns a tensor in which `length`, `type`, `scale` and
`zero_point` are unchanged, and every element `j ≠ i` holds the same bytes
and reads the same through `get_element_f32`. -/
theorem set_element_f32_frame (t : TinyTensor) (i : Nat) (v : F32)
    (hv : t.Valid) (hi : i < t.length) (hs : t.Storable v) :
    ∃ t', set_element_f32 t i v = some t' ∧
      t'.length = t.length ∧ t'.type = t.type ∧ t'.scale = t.scale ∧
      t'.zero_point = t.zero_point ∧
      ∀ j, j ≠ i →
        t'.element_bytes j = t.element_bytes j ∧
        get_element_f32 t' j = get_element_f32 t j := by
  obtain ⟨t', hset⟩ := set_element_f32_defined hv hi hs
  obtain ⟨buf, bs, buf', hbuf, hbs, hw, rfl⟩ := set_element_f32_write hi hset
  refine ⟨_, hset, rfl, rfl, rfl, rfl, ?_⟩
  intro j hj
  have hb : TinyTensor.element_bytes { t with data := some buf' } j = t.element_bytes j := by
    simp only [TinyTensor.element_bytes, hbuf]
    apply readBytes_writeBytes_other hw
    rw [hbs]
    rcases Nat.lt_or_gt_of_ne hj with hlt | hgt
    · left
      calc element_size t.type * j + element_size t.type
          = element_size t.type * (j + 1) := by ring
        _ ≤ element_size t.type * i := Nat.mul_le_mul_left _ hlt
    · right
      calc element_size t.type * i + element_size t.type
          = element_size t.type * (i + 1) := by ring
        _ ≤ element_size t.type * j := Nat.mul_le_mul_left _ hgt
  exact ⟨hb, get_element_f32_congr rfl rfl rfl rfl hb⟩

set_option maxRecDepth 100000 in
theorem set_element_f32_frame_witness :
    ∃ t', set_element_f32
        ⟨TensorType.DTYPE_I8, 2, some [byteOf 7, byteOf 9], F32.one, I8.zero⟩ 0
        (F32.ofInt 5) = some t' ∧
      t'.length = 2 ∧ t'.type = TensorType.DTYPE_I8 ∧ t'.scale = F32.one ∧
      t'.zero_point = I8.zero ∧
      ∀ j, j ≠ 0 →
        t'.element_bytes j =
          TinyTensor.element_bytes
            ⟨TensorType.DTYPE_I8, 2, some [byteOf 7, byteOf 9], F32.one, I8.zero⟩ j ∧
        get_element_f32 t' j =
          get_element_f32
            ⟨TensorType.DTYPE_I8, 2, some [byteOf 7, byteOf 9], F32.one, I8.zero⟩ j :=
  set_element_f32_frame
    ⟨TensorType.DTYPE_I8, 2, some [byteOf 7, byteOf 9], F32.one, I8.zero⟩ 0 (F32.ofInt 5)
    ⟨[byteOf 7, byteOf 9], rfl, rfl⟩ (by decide) (by decide)

/-! ## Invariant (C10) -/

/-- C10: when both allocations succeed, the tensor `create_tensor` returns
has a buffer of exactly `length * element_size type` bytes, and after any
sequence of `set_element_f32` calls and assignments to `scale` or
`zero_point` the tensor still has such a buffer, with `length` and `type`
equal to the values given at creation. -/
theorem create_tensor_invariant (h : Heap) (n : Nat) (e : TensorType)
    (hm : h.mallocOk = true) (hc : h.callocOk = true) :
    ∃ t₀, create_tensor h n e = some t₀ ∧ t₀.Valid ∧
      ∀ ops t, run t₀ ops = some t → t.Valid ∧ t.length = n ∧ t.type = e := by
  have hv : TinyTensor.Valid
      ⟨e, n, some (List.replicate (n * element_size e) 0), F32.one, I8.zero⟩ :=
    ⟨_, rfl, List.length_replicate _ _⟩
  refine ⟨⟨e, n, some (List.replicate (n * element_size e) 0), F32.one, I8.zero⟩, ?_, hv, ?_⟩
  · simp [create_tensor, calloc, hm, hc]
  · intro ops t hr
    exact run_preserves hv hr

theorem create_tensor_invariant_witness :
    ∃ t₀, create_tensor ⟨true, true⟩ 10 TensorType.DTYPE_I8 = some t₀ ∧ t₀.Valid ∧
      ∀ ops t, run t₀ ops = some t →
        t.Valid ∧ t.length = 10 ∧ t.type = TensorType.DTYPE_I8 :=
  create_tensor_invariant ⟨true, true⟩ 10 TensorType.DTYPE_I8 rfl rfl

/-! ## Further lemmas -/

theorem set_element_f32_type {t t' : TinyTensor} {i : Nat} {v : F32}
    (h : set_element_f32 t i v = some t') : t'.type = t.type ∧ t'.length = t.length := by
  by_cases hi : i < t.length
  · obtain ⟨_, _, _, _, _, _, rfl⟩ := set_element_f32_write hi h
    exact ⟨rfl, rfl⟩
  · unfold set_element_f32 at h
    rw [if_pos (by omega)] at h
    cases h
    exact ⟨rfl, rfl⟩

theorem get_element_f32_f16 {t : TinyTensor} (ht : t.type = TensorType.DTYPE_F16) (i : Nat) :
    get_element_f32 t i = some (F32.zero false) := by
  unfold get_element_f32
  simp [ht]

theorem F32.toRat_ofInt {k : Int} (hk : k.natAbs < 16777216) :
    (F32.ofInt k).isFinite ∧ (F32.ofInt k).toRat = (k : ℚ) := by
  obtain ⟨m, e, hd, hv⟩ := F32.ofInt_spec hk
  constructor
  · unfold F32.isFinite
    intro h255
    unfold F32.decode at hd
    rw [if_pos h255] at hd
    split at hd <;> cases hd
  · unfold F32.toRat
    rw [hd]
    simp only [FVal.toRat]
    by_cases hn : k < 0
    · simp only [hn, decide_True, if_true, neg_mul, hv]
      rw [Nat.cast_natAbs, abs_of_neg hn]
      push_cast
      ring
    · simp only [hn, decide_False, Bool.false_eq_true, if_false, hv]
      rw [Nat.cast_natAbs, abs_of_nonneg (not_lt.mp hn)]

theorem F32.toRat_one : F32.one.toRat = 1 := by
  have h : F32.one.decode = FVal.fin false 8388608 (-23) := by decide
  unfold F32.toRat
  rw [h]
  simp only [FVal.toRat]
  norm_num

theorem readBytes_replicate_zero {len off n : Nat} (h : off + n ≤ len) :
    readBytes (List.replicate len (0 : Byte)) off n = some (List.replicate n 0) := by
  unfold readBytes
  rw [if_pos (by rw [List.length_replicate]; exact h)]
  rw [List.drop_replicate, List.take_replicate]
  congr 2
  omega

theorem load_i8_defined {t : TinyTensor} {i : Nat} (ht : t.type = TensorType.DTYPE_I8)
    (hv : t.Valid) (hi : i < t.length) : ∃ q, load_i8 t.data i = some q := by
  obtain ⟨buf, hbuf, hlen⟩ := hv
  rw [ht] at hlen
  simp only [element_size, Nat.mul_one] at hlen
  have hib : i < buf.length := by omega
  refine ⟨I8.ofByte (buf.get ⟨i, hib⟩), ?_⟩
  unfold load_i8 readBytes
  rw [hbuf]
  simp only
  rw [if_pos (by omega), List.drop_eq_getElem_cons hib]
  rfl

theorem set_i8_stores {t : TinyTensor} {i : Nat} {v : F32} {p : Int}
    (ht : t.type = TensorType.DTYPE_I8) (hv : t.Valid) (hi : i < t.length)
    (hp : quantize_target t.scale t.zero_point v = some p)
    (hlo : -2147483648 ≤ p) (hhi : p ≤ 2147483647) :
    ∃ t', set_element_f32 t i v = some t' ∧ load_i8 t'.data i = some (wrapInt8 p) ∧
      t'.type = t.type ∧ t'.length = t.length ∧ t'.scale = t.scale ∧
      t'.zero_point = t.zero_point := by
  obtain ⟨buf, hbuf, hlen⟩ := hv
  rw [ht] at hlen
  have h8 : (F32.fadd (F32.fdiv v t.scale) (F32.ofInt t.zero_point.val)).toInt8
      = some (wrapInt8 p) := by
    unfold quantize_target at hp
    unfold F32.toInt8
    rw [hp]
    simp only
    rw [if_pos ⟨hlo, hhi⟩]
  have hle : i + [(wrapInt8 p).toByte].length ≤ buf.length := by
    rw [hlen]; simp only [element_size, List.length_singleton]; omega
  obtain ⟨buf', hw⟩ := writeBytes_isSome hle
  refine ⟨{ t with data := some buf' }, ?_, ?_, rfl, rfl, rfl, rfl⟩
  · unfold set_element_f32
    rw [if_neg (by omega)]
    simp only [ht, reduceCtorEq, if_false, if_true, h8, store_i8, hbuf, hw]
  · have hr := readBytes_writeBytes_same hw
    simp only [List.length_singleton] at hr
    simp only [load_i8, hr, I8.ofByte_toByte]

theorem wrapInt8_val (z : I8) : wrapInt8 z.val = z := by
  obtain ⟨v, hlo, hhi⟩ := z
  simp only [wrapInt8, I8.mk.injEq]
  omega

theorem F32.toUInt16_of_range {v : F32} (hfin : v.isFinite) (h0 : 0 ≤ v.toRat)
    (h1 : v.toRat < 65536) :
    ∃ n : Nat, v.toUInt16 = some n ∧ (n : ℚ) ≤ v.toRat ∧ v.toRat < (n : ℚ) + 1 ∧ n < 65536 := by
  obtain ⟨neg, m, e, hd⟩ := F32.decode_of_isFinite hfin
  obtain ⟨mag, htr, hm1, hm2⟩ := F32.truncToInt_spec hd
  unfold F32.toRat at h0 h1 ⊢
  rw [hd] at h0 h1 ⊢
  simp only [FVal.toRat] at h0 h1 ⊢
  have hpos : (0 : ℚ) ≤ (m : ℚ) * (2 : ℚ) ^ e := by positivity
  cases neg with
  | true =>
    simp only [if_true, neg_mul] at h0 h1 htr ⊢
    have hz : (m : ℚ) * (2 : ℚ) ^ e = 0 := by linarith
    have hmag : mag = 0 := by
      have : (mag : ℚ) ≤ 0 := by linarith
      have : (mag : ℚ) = 0 := le_antisymm this (by positivity)
      exact_mod_cast this
    subst hmag
    refine ⟨0, ?_, ?_, ?_, by decide⟩
    · unfold F32.toUInt16
      rw [htr]
      simp
    · rw [hz]; simp
    · rw [hz]; simp
  | false =>
    simp only [Bool.false_eq_true, if_false] at h0 h1 htr ⊢
    have hlt : mag < 65536 := by
      have : (mag : ℚ) < 65536 := by linarith
      exact_mod_cast this
    refine ⟨mag, ?_, hm1, hm2, hlt⟩
    unfold F32.toUInt16
    rw [htr]
    simp only
    rw [if_pos (by constructor <;> omega)]
    congr 1
    simp only [Int.toNat_ofNat]
    omega

theorem F32.decode_sign {x : F32} {neg : Bool} {m : Nat} {e : Int}
    (h : x.decode = FVal.fin neg m e) : neg = x.sign := by
  unfold F32.decode at h
  split at h
  · split at h <;> cases h
  · split at h <;> cases h <;> rfl

theorem F32.round_zero (neg : Bool) (d : Nat) (e : Int) : F32.round neg 0 d e = F32.zero neg := by
  unfold F32.round
  rw [if_pos rfl]

theorem F32.ofInt_zero : F32.ofInt 0 = F32.zero false := by decide

theorem F32.fmul_zero_left {s : F32} {ss : Bool} {ms : Nat} {es : Int}
    (hs : s.decode = FVal.fin ss ms es) : F32.fmul (F32.zero false) s = F32.zero ss := by
  unfold F32.fmul
  rw [F32.decode_zero, hs]
  simp only [Nat.zero_mul, F32.round_zero, Bool.false_xor]

theorem F32.fdiv_zero_left {s : F32} {ss : Bool} {ms : Nat} {es : Int}
    (hs : s.decode = FVal.fin ss ms es) (hms : ms ≠ 0) :
    F32.fdiv (F32.zero false) s = F32.zero ss := by
  rw [F32.fdiv_fin_fin (F32.decode_zero false) hs, if_neg hms, F32.round_zero, Bool.false_xor]

theorem F32.mantissa_ne_zero {s : F32} {ss : Bool} {ms : Nat} {es : Int}
    (hs : s.decode = FVal.fin ss ms es) (hnz : s.toRat ≠ 0) : ms ≠ 0 := by
  intro h
  apply hnz
  unfold F32.toRat
  rw [hs, h]
  simp [FVal.toRat]

theorem quantize_target_zero {s : F32} {ss : Bool} {ms : Nat} {es : Int} (z : I8)
    (hs : s.decode = FVal.fin ss ms es) (hms : ms ≠ 0) :
    quantize_target s z (F32.zero false) = some z.val := by
  have hzlo := z.lo
  have hzhi := z.hi
  have hzabs : z.val.natAbs < 16777216 := by omega
  obtain ⟨mz, ez, hzd, hzv⟩ := F32.ofInt_spec hzabs
  have hZ : (FVal.fin ss 0 (-149)).toRat + (FVal.fin (decide (z.val < 0)) mz ez).toRat
      = (z.val : ℚ) := by
    simp only [FVal.toRat, Nat.cast_zero, neg_zero, ite_self, zero_mul, zero_add]
    by_cases hzn : z.val < 0
    · simp only [hzn, decide_True, if_true, neg_mul, hzv]
      rw [Nat.cast_natAbs, abs_of_neg hzn]
      push_cast
      ring
    · simp only [hzn, decide_False, Bool.false_eq_true, if_false, hzv]
      rw [Nat.cast_natAbs, abs_of_nonneg (not_lt.mp hzn)]
  have hzq : |(z.val : ℚ)| < 16777216 := by
    rw [abs_lt]
    constructor
    · have : (-16777216 : Int) < z.val := by omega
      exact_mod_cast this
    · have : z.val < (16777216 : Int) := by omega
      exact_mod_cast this
  unfold quantize_target
  rw [F32.fdiv_zero_left hs hms]
  rcases F32.fadd_fin_bounded (F32.decode_zero ss) hzd with ⟨_, hbig⟩ | ⟨nw, mw, ew, hwd, hws, hwpos, hwneg⟩
  · rw [hZ] at hbig
    linarith
  · rw [hZ] at hws hwpos hwneg
    obtain ⟨mag, htr, hm1, hm2⟩ := F32.truncToInt_spec hwd
    rw [htr]
    -- the sum is the integer itself
    have hK : ((z.val.natAbs : Nat) : ℚ) = |(z.val : ℚ)| := by
      rw [Nat.cast_natAbs, Int.cast_abs]
    obtain ⟨ha, hb⟩ := hws z.val.natAbs hzabs
    have hval : (mw : ℚ) * (2 : ℚ) ^ ew = ((z.val.natAbs : Nat) : ℚ) :=
      le_antisymm (ha (by rw [hK])) (hb (by rw [hK]))
    rw [hval] at hm1 hm2
    have hmag : mag = z.val.natAbs := by
      have h1 : mag ≤ z.val.natAbs := by exact_mod_cast hm1
      have h2 : z.val.natAbs < mag + 1 := by exact_mod_cast hm2
      omega
    congr 1
    rcases lt_trichotomy z.val 0 with hz | hz | hz
    · have : nw = true := hwneg (by exact_mod_cast hz)
      rw [this, hmag]
      simp only [if_true]
      omega
    · rw [hmag, hz]
      simp
    · have : nw = false := hwpos (by exact_mod_cast hz)
      rw [this, hmag]
      simp only [Bool.false_eq_true, if_false]
      omega

namespace F32

theorem roundHalfEven_floor_le (num den : Nat) : num / den ≤ roundHalfEven num den := by
  unfold roundHalfEven
  simp only
  split
  · exact le_rfl
  · split
    · omega
    · split <;> omega

theorem roundHalfEven_le_succ (num den : Nat) : roundHalfEven num den ≤ num / den + 1 := by
  unfold roundHalfEven
  simp only
  split
  · omega
  · split
    · omega
    · split <;> omega

theorem roundHalfEven_mono {n₁ d₁ n₂ d₂ : Nat} (h₁ : 0 < d₁) (h₂ : 0 < d₂)
    (h : n₁ * d₂ ≤ n₂ * d₁) : roundHalfEven n₁ d₁ ≤ roundHalfEven n₂ d₂ := by
  have hq : n₁ / d₁ ≤ n₂ / d₂ := by
    rw [Nat.le_div_iff_mul_le h₂]
    have h3 : n₁ / d₁ * d₁ ≤ n₁ := Nat.div_mul_le_self n₁ d₁
    have h4 : n₁ / d₁ * d₂ * d₁ ≤ n₂ * d₁ := by
      calc n₁ / d₁ * d₂ * d₁ = n₁ / d₁ * d₁ * d₂ := by ring
        _ ≤ n₁ * d₂ := Nat.mul_le_mul_right _ h3
        _ ≤ n₂ * d₁ := h
    exact Nat.le_of_mul_le_mul_right h4 h₁
  rcases Nat.lt_or_ge (n₁ / d₁) (n₂ / d₂) with hlt | hge
  · calc roundHalfEven n₁ d₁ ≤ n₁ / d₁ + 1 := roundHalfEven_le_succ _ _
      _ ≤ n₂ / d₂ := hlt
      _ ≤ roundHalfEven n₂ d₂ := roundHalfEven_floor_le _ _
  · have heq : n₁ / d₁ = n₂ / d₂ := Nat.le_antisymm hq hge
    have e₁ := Nat.div_add_mod n₁ d₁
    have e₂ := Nat.div_add_mod n₂ d₂
    have hr : n₁ % d₁ * d₂ ≤ n₂ % d₂ * d₁ := by
      have : (d₁ * (n₁ / d₁) + n₁ % d₁) * d₂ ≤ (d₂ * (n₂ / d₂) + n₂ % d₂) * d₁ := by
        rw [e₁, e₂]; exact h
      rw [heq] at this
      nlinarith
    unfold roundHalfEven
    simp only
    rw [heq]
    by_cases ha : 2 * (n₁ % d₁) < d₁
    · rw [if_pos ha]
      split
      · exact le_rfl
      · split
        · omega
        · split <;> omega
    · rw [if_neg ha]
      have hb : ¬ 2 * (n₂ % d₂) < d₂ := by
        intro hcon
        have h5 : 2 * (n₂ % d₂) * d₁ < d₂ * d₁ := Nat.mul_lt_mul_of_pos_right hcon h₁
        have h6 : d₁ * d₂ ≤ 2 * (n₁ % d₁) * d₂ := Nat.mul_le_mul_right _ (not_lt.mp ha)
        nlinarith
      rw [if_neg hb]
      by_cases hc : d₁ < 2 * (n₁ % d₁)
      · rw [if_pos hc]
        have hd : d₂ < 2 * (n₂ % d₂) := by
          by_contra hcon
          have h5 : 2 * (n₂ % d₂) * d₁ ≤ d₂ * d₁ := Nat.mul_le_mul_right _ (not_lt.mp hcon)
          have h6 : d₁ * d₂ < 2 * (n₁ % d₁) * d₂ := Nat.mul_lt_mul_of_pos_right hc h₂
          nlinarith
        rw [if_pos hd]
      · rw [if_neg hc]
        split_ifs <;> omega


theorem round_char (neg : Bool) (n d : Nat) (e : Int) (hd : 0 < d) (hn : n ≠ 0) :
    ∃ (E : Int) (B num den m : Nat), (B : Int) = E + 126 ∧ 0 < den ∧
      (num : ℚ) / den = (n : ℚ) / d * (2 : ℚ) ^ e * (2 : ℚ) ^ (23 - E) ∧
      m = roundHalfEven num den ∧
      (n : ℚ) / d * (2 : ℚ) ^ e < (2 : ℚ) ^ (E + 1) ∧
      (0 < B → (2 : ℚ) ^ E ≤ (n : ℚ) / d * (2 : ℚ) ^ e) ∧
      m ≤ 16777216 ∧ (0 < B → 8388608 ≤ m) ∧
      ((2139095040 ≤ B * 8388608 + m ∧ (round neg n d e).decode = FVal.inf neg) ∨
       (B * 8388608 + m < 2139095040 ∧
        ∃ m' e', (round neg n d e).decode = FVal.fin neg m' e' ∧
          (m' : ℚ) * (2 : ℚ) ^ e' = (m : ℚ) * (2 : ℚ) ^ (E - 23))) := by
  have h2 : (0 : ℚ) < 2 := by norm_num
  have h2' : (2 : ℚ) ≠ 0 := by norm_num
  unfold round
  rw [if_neg hn]
  simp only
  have hnpos : 0 < n := Nat.pos_of_ne_zero hn
  have hp2 := shiftFrac_pos (N := n) e hd
  have hp1 := shiftFrac_num_pos (D := d) e hnpos
  have hps := shiftFrac_spec (N := n) e hd
  generalize shiftFrac n d e = p at hp1 hp2 hps ⊢
  obtain ⟨hL1, hL2⟩ := ratLog2_spec hp1 hp2
  rw [hps] at hL1 hL2
  generalize ratLog2 p.1 p.2 = L at hL1 hL2 ⊢
  generalize hρ : (n : ℚ) / d * (2 : ℚ) ^ e = ρ at hps hL1 hL2 ⊢
  have hr2 := shiftFrac_pos (N := p.1) (23 - max L (-126)) hp2
  have hrs := shiftFrac_spec (N := p.1) (23 - max L (-126)) hp2
  rw [hps] at hrs
  generalize shiftFrac p.1 p.2 (23 - max L (-126)) = r at hr2 hrs ⊢
  have hEge : -126 ≤ max L (-126) := le_max_right _ _
  have hEL : L ≤ max L (-126) := le_max_left _ _
  have hEcase : max L (-126) = -126 ∨ max L (-126) = L := by
    rcases le_total L (-126) with h | h
    · left; exact max_eq_right h
    · right; exact max_eq_left h
  generalize max L (-126) = E at hr2 hrs hEge hEL hEcase ⊢
  have hr2q : (0 : ℚ) < (r.2 : ℚ) := by exact_mod_cast hr2
  have hupper : ρ < (2 : ℚ) ^ (E + 1) :=
    lt_of_lt_of_le hL2 (zpow_le_zpow_right₀ (by norm_num) (by omega))
  have hmle : roundHalfEven r.1 r.2 ≤ 16777216 := by
    apply roundHalfEven_le hr2
    have h1 : ρ * (2 : ℚ) ^ (23 - E) < 16777216 := by
      calc ρ * (2 : ℚ) ^ (23 - E) < (2 : ℚ) ^ (E + 1) * (2 : ℚ) ^ (23 - E) :=
            mul_lt_mul_of_pos_right hupper (zpow_pos h2 _)
        _ = (2 : ℚ) ^ (24 : Int) := by
            rw [← zpow_add₀ h2']; congr 1; ring
        _ = 16777216 := by norm_num
    rw [← hrs, div_lt_iff₀ hr2q] at h1
    have : (r.1 : ℚ) ≤ ((16777216 * r.2 : Nat) : ℚ) := by push_cast; exact h1.le
    exact_mod_cast this
  have hmge : E = L → 8388608 ≤ roundHalfEven r.1 r.2 := by
    intro hE
    apply le_roundHalfEven hr2
    have h1 : (8388608 : ℚ) ≤ ρ * (2 : ℚ) ^ (23 - E) := by
      calc (8388608 : ℚ) = (2 : ℚ) ^ (23 : Int) := by norm_num
        _ = (2 : ℚ) ^ E * (2 : ℚ) ^ (23 - E) := by
            rw [← zpow_add₀ h2']; congr 1; ring
        _ ≤ ρ * (2 : ℚ) ^ (23 - E) :=
            mul_le_mul_of_nonneg_right (hE ▸ hL1) (zpow_pos h2 _).le
    rw [← hrs, le_div_iff₀ hr2q] at h1
    have : ((8388608 * r.2 : Nat) : ℚ) ≤ (r.1 : ℚ) := by push_cast; exact h1
    exact_mod_cast this
  obtain ⟨B, hB⟩ := Int.eq_ofNat_of_zero_le (show 0 ≤ E + 126 by omega)
  have hBnat : (E + 126).toNat = B := by omega
  rw [hBnat]
  have hEL' : 0 < B → E = L := by
    intro hpos
    rcases hEcase with h | h
    · omega
    · exact h
  refine ⟨E, B, r.1, r.2, roundHalfEven r.1 r.2, by omega, hr2, hrs, rfl, hupper, ?_, hmle,
    fun hpos => hmge (hEL' hpos), ?_⟩
  · intro hpos
    rw [hEL' hpos]
    exact hL1
  · by_cases hov : 2139095040 ≤ B * 8388608 + roundHalfEven r.1 r.2
    · rw [if_pos hov]
      left
      exact ⟨hov, decode_infinity neg⟩
    · rw [if_neg hov]
      right
      have hBcond : B = 0 ∨ 8388608 ≤ roundHalfEven r.1 r.2 := by
        rcases Nat.eq_zero_or_pos B with h | h
        · left; exact h
        · right; exact hmge (hEL' h)
      obtain ⟨m', e', hdec, hval⟩ :=
        decode_pack_fin neg B (roundHalfEven r.1 r.2) (by omega) hmle hBcond
      refine ⟨by omega, m', e', hdec, ?_⟩
      rw [hval]
      have hexp : (B : Int) - 149 = E - 23 := by omega
      rw [hexp]

theorem absLe_zero_left {x y : F32} {neg : Bool} {e : Int}
    (hx : x.decode = FVal.fin neg 0 e) (hy : y.decode ≠ FVal.nan) : absLe x y := by
  unfold absLe
  rw [hx]
  cases hyd : y.decode with
  | nan => exact absurd hyd hy
  | inf b => trivial
  | fin b n f =>
    simp only [Nat.cast_zero, zero_mul]
    positivity

theorem round_decode_ne_nan (neg : Bool) (n d : Nat) (e : Int) (hd : 0 < d) :
    (round neg n d e).decode ≠ FVal.nan := by
  rcases round_spec neg n d e hd with ⟨h, _⟩ | ⟨m, e', h, _⟩ <;> rw [h] <;> exact fun h => by cases h

theorem round_absLe (neg₁ neg₂ : Bool) (n₁ d₁ n₂ d₂ : Nat) (e₁ e₂ : Int)
    (hd₁ : 0 < d₁) (hd₂ : 0 < d₂)
    (h : (n₁ : ℚ) / d₁ * (2 : ℚ) ^ e₁ ≤ (n₂ : ℚ) / d₂ * (2 : ℚ) ^ e₂) :
    absLe (round neg₁ n₁ d₁ e₁) (round neg₂ n₂ d₂ e₂) := by
  have h2 : (0 : ℚ) < 2 := by norm_num
  have h2' : (2 : ℚ) ≠ 0 := by norm_num
  by_cases hn₁ : n₁ = 0
  · subst hn₁
    rw [round_zero]
    exact absLe_zero_left (decode_zero neg₁) (round_decode_ne_nan _ _ _ _ hd₂)
  · have hρ₁ : (0 : ℚ) < (n₁ : ℚ) / d₁ * (2 : ℚ) ^ e₁ := by
      have : (0 : ℚ) < (n₁ : ℚ) := by exact_mod_cast Nat.pos_of_ne_zero hn₁
      have : (0 : ℚ) < (d₁ : ℚ) := by exact_mod_cast hd₁
      positivity
    have hn₂ : n₂ ≠ 0 := by
      intro h0
      subst h0
      simp only [Nat.cast_zero, zero_div, zero_mul] at h
      linarith
    obtain ⟨E₁, B₁, num₁, den₁, m₁, hB₁, hden₁, hfr₁, hm₁, hup₁, hlo₁, hmle₁, hmge₁, hres₁⟩ :=
      round_char neg₁ n₁ d₁ e₁ hd₁ hn₁
    obtain ⟨E₂, B₂, num₂, den₂, m₂, hB₂, hden₂, hfr₂, hm₂, hup₂, hlo₂, hmle₂, hmge₂, hres₂⟩ :=
      round_char neg₂ n₂ d₂ e₂ hd₂ hn₂
    generalize (n₁ : ℚ) / d₁ * (2 : ℚ) ^ e₁ = ρ₁ at h hρ₁ hfr₁ hup₁ hlo₁
    generalize (n₂ : ℚ) / d₂ * (2 : ℚ) ^ e₂ = ρ₂ at h hfr₂ hup₂ hlo₂
    -- the binades are ordered
    have hE : E₁ ≤ E₂ := by
      rcases Nat.eq_zero_or_pos B₁ with hb | hb
      · omega
      · have h3 : (2 : ℚ) ^ E₁ < (2 : ℚ) ^ (E₂ + 1) :=
          lt_of_le_of_lt ((hlo₁ hb).trans h) hup₂
        have := (zpow_lt_zpow_iff_right₀ (by norm_num : (1 : ℚ) < 2)).mp h3
        omega
    -- the significands are ordered inside one binade
    have hmm : E₁ = E₂ → m₁ ≤ m₂ := by
      intro hEE
      rw [hm₁, hm₂]
      apply roundHalfEven_mono hden₁ hden₂
      have hden₁q : (0 : ℚ) < (den₁ : ℚ) := by exact_mod_cast hden₁
      have hden₂q : (0 : ℚ) < (den₂ : ℚ) := by exact_mod_cast hden₂
      have h3 : (num₁ : ℚ) / den₁ ≤ (num₂ : ℚ) / den₂ := by
        rw [hfr₁, hfr₂, hEE]
        exact mul_le_mul_of_nonneg_right h (zpow_pos h2 _).le
      rw [div_le_div_iff₀ hden₁q hden₂q] at h3
      exact_mod_cast h3
    -- so are the values and the bit patterns
    have hval : (m₁ : ℚ) * (2 : ℚ) ^ (E₁ - 23) ≤ (m₂ : ℚ) * (2 : ℚ) ^ (E₂ - 23) := by
      rcases eq_or_lt_of_le hE with hEE | hlt
      · rw [hEE]
        have : (m₁ : ℚ) ≤ (m₂ : ℚ) := by exact_mod_cast hmm hEE
        exact mul_le_mul_of_nonneg_right this (zpow_pos h2 _).le
      · have hb₂ : 0 < B₂ := by omega
        have hm₂' : (8388608 : ℚ) ≤ (m₂ : ℚ) := by exact_mod_cast hmge₂ hb₂
        have hm₁' : (m₁ : ℚ) ≤ 16777216 := by exact_mod_cast hmle₁
        calc (m₁ : ℚ) * (2 : ℚ) ^ (E₁ - 23)
            ≤ 16777216 * (2 : ℚ) ^ (E₁ - 23) :=
              mul_le_mul_of_nonneg_right hm₁' (zpow_pos h2 _).le
          _ = (2 : ℚ) ^ (24 : Int) * (2 : ℚ) ^ (E₁ - 23) := by norm_num
          _ = (2 : ℚ) ^ (E₁ + 1) := by rw [← zpow_add₀ h2']; congr 1; ring
          _ ≤ (2 : ℚ) ^ E₂ := zpow_le_zpow_right₀ (by norm_num) (by omega)
          _ = (2 : ℚ) ^ (23 : Int) * (2 : ℚ) ^ (E₂ - 23) := by
              rw [← zpow_add₀ h2']; congr 1; ring
          _ = 8388608 * (2 : ℚ) ^ (E₂ - 23) := by norm_num
          _ ≤ (m₂ : ℚ) * (2 : ℚ) ^ (E₂ - 23) :=
              mul_le_mul_of_nonneg_right hm₂' (zpow_pos h2 _).le
    have hfield : B₁ * 8388608 + m₁ ≤ B₂ * 8388608 + m₂ := by
      rcases eq_or_lt_of_le hE with hEE | hlt
      · have := hmm hEE
        have : B₁ = B₂ := by omega
        omega
      · have hb₂ : 0 < B₂ := by omega
        have := hmge₂ hb₂
        omega
    unfold absLe
    rcases hres₂ with ⟨_, hinf₂⟩ | ⟨hlt₂, m₂', e₂', hdec₂, hv₂⟩
    · rw [hinf₂]
      rcases hres₁ with ⟨_, hinf₁⟩ | ⟨_, m₁', e₁', hdec₁, _⟩
      · rw [hinf₁]; trivial
      · rw [hdec₁]; trivial
    · rcases hres₁ with ⟨hge₁, _⟩ | ⟨_, m₁', e₁', hdec₁, hv₁⟩
      · omega
      · rw [hdec₁, hdec₂]
        simp only
        rw [hv₁, hv₂]
        exact hval

end F32

theorem F32.fmul_ofInt_absLe {k : Int} {s : F32} {ss : Bool} {ms : Nat} {es : Int}
    (hk : k.natAbs ≤ 255) (hs : s.decode = FVal.fin ss ms es) :
    F32.absLe (F32.fmul (F32.ofInt k) s) (F32.fmul (F32.ofInt 255) s) := by
  obtain ⟨mk, ek, hkd, hkv⟩ := F32.ofInt_spec (show k.natAbs < 16777216 by omega)
  obtain ⟨mc, ec, hcd, hcv⟩ := F32.ofInt_spec (show (255 : Int).natAbs < 16777216 by decide)
  have h1 : F32.fmul (F32.ofInt k) s = F32.round (xor (decide (k < 0)) ss) (mk * ms) 1 (ek + es) := by
    unfold F32.fmul
    rw [hkd, hs]
  have h2 : F32.fmul (F32.ofInt 255) s
      = F32.round (xor (decide ((255 : Int) < 0)) ss) (mc * ms) 1 (ec + es) := by
    unfold F32.fmul
    rw [hcd, hs]
  rw [h1, h2]
  apply F32.round_absLe _ _ _ _ _ _ _ _ (by decide) (by decide)
  have hz : (2 : ℚ) ≠ 0 := by norm_num
  have hkq : ((k.natAbs : Nat) : ℚ) ≤ (((255 : Int).natAbs : Nat) : ℚ) := by
    have : k.natAbs ≤ (255 : Int).natAbs := by simpa using hk
    exact_mod_cast this
  have hpos : (0 : ℚ) ≤ (ms : ℚ) * (2 : ℚ) ^ es := by positivity
  calc ((mk * ms : Nat) : ℚ) / ((1 : Nat) : ℚ) * (2 : ℚ) ^ (ek + es)
      = ((mk : ℚ) * (2 : ℚ) ^ ek) * ((ms : ℚ) * (2 : ℚ) ^ es) := by
        rw [zpow_add₀ hz]; push_cast; ring
    _ ≤ ((mc : ℚ) * (2 : ℚ) ^ ec) * ((ms : ℚ) * (2 : ℚ) ^ es) := by
        rw [hkv, hcv]
        exact mul_le_mul_of_nonneg_right hkq hpos
    _ = ((mc * ms : Nat) : ℚ) / ((1 : Nat) : ℚ) * (2 : ℚ) ^ (ec + es) := by
        rw [zpow_add₀ hz]; push_cast; ring

theorem F32.fmul_ofInt_decode_ne_nan {k : Int} {s : F32} {ss : Bool} {ms : Nat} {es : Int}
    (hk : k.natAbs < 16777216) (hs : s.decode = FVal.fin ss ms es) :
    (F32.fmul (F32.ofInt k) s).decode ≠ FVal.nan := by
  obtain ⟨mk, ek, hkd, _⟩ := F32.ofInt_spec hk
  have h1 : F32.fmul (F32.ofInt k) s = F32.round (xor (decide (k < 0)) ss) (mk * ms) 1 (ek + es) := by
    unfold F32.fmul
    rw [hkd, hs]
  rw [h1]
  exact F32.round_decode_ne_nan _ _ _ _ (by decide)

/-! ## Dead configuration (C11) -/

/-- C11: for any two tensors of encoding `DTYPE_F32` or `DTYPE_F16` that agree
on `type`, `length` and `data` (so differ at most in `scale` and
`zero_point`), every index and every value, `get_element_f32` returns the
same result on both and `set_element_f32` leaves the same buffer on both
(and is defined on one exactly when it is on the other). -/
theorem scale_zero_point_ignored (t₁ t₂ : TinyTensor) (i : Nat) (v : F32)
    (hty : t₁.type = t₂.type) (hlen : t₁.length = t₂.length) (hdata : t₁.data = t₂.data)
    (ht : t₁.type = TensorType.DTYPE_F32 ∨ t₁.type = TensorType.DTYPE_F16) :
    get_element_f32 t₁ i = get_element_f32 t₂ i ∧
    (set_element_f32 t₁ i v).map (fun r => r.data)
      = (set_element_f32 t₂ i v).map (fun r => r.data) := by
  obtain ⟨ty₁, len₁, d₁, s₁, z₁⟩ := t₁
  obtain ⟨ty₂, len₂, d₂, s₂, z₂⟩ := t₂
  simp only at hty hlen hdata ht
  subst hty hlen hdata
  constructor
  · unfold get_element_f32
    rcases ht with h | h <;> subst h <;> simp
  · unfold set_element_f32
    by_cases hi : i ≥ len₁
    · simp [hi]
    · rcases ht with h | h <;> subst h
      · simp only [hi, if_false, if_true]
        cases store_f32 d₁ i v <;> rfl
      · simp only [hi, if_false, if_true, reduceCtorEq]
        cases v.toUInt16 with
        | none => rfl
        | some n =>
          simp only
          cases store_u16 d₁ i n <;> rfl

set_option maxRecDepth 100000 in
theorem scale_zero_point_ignored_witness :
    get_element_f32
        ⟨TensorType.DTYPE_F32, 1, some (F32.ofInt 7).toBytes, F32.one, I8.zero⟩ 0
      = get_element_f32
        ⟨TensorType.DTYPE_F32, 1, some (F32.ofInt 7).toBytes, F32.ofDecimal false 5 100,
          wrapInt8 9⟩ 0 ∧
    (set_element_f32
        ⟨TensorType.DTYPE_F32, 1, some (F32.ofInt 7).toBytes, F32.one, I8.zero⟩ 0
        (F32.ofInt 3)).map (fun r => r.data)
      = (set_element_f32
        ⟨TensorType.DTYPE_F32, 1, some (F32.ofInt 7).toBytes, F32.ofDecimal false 5 100,
          wrapInt8 9⟩ 0 (F32.ofInt 3)).map (fun r => r.data) :=
  scale_zero_point_ignored _ _ 0 (F32.ofInt 3) rfl rfl rfl (Or.inl rfl)

/-! ## Float16 reads (C12) -/

/-- C12: for every `DTYPE_F16` tensor, whatever its buffer, and every index,
`get_element_f32` returns `0.0f`; so whenever `set_element_f32(t, i, v)`
returns a tensor, reading index `i` of it returns `0.0f`, and it does return
one for every tensor with a buffer of `length * 2` bytes and every value whose
conversion to `uint16_t` is defined. -/
theorem get_element_f32_f16_zero (t : TinyTensor) (i : Nat) (v : F32)
    (ht : t.type = TensorType.DTYPE_F16) :
    get_element_f32 t i = some (F32.zero false) ∧ (F32.zero false).bits = 0 ∧
    (∀ t', set_element_f32 t i v = some t' → get_element_f32 t' i = some (F32.zero false)) ∧
    (t.Valid → t.Storable v →
      ∃ t', set_element_f32 t i v = some t' ∧ get_element_f32 t' i = some (F32.zero false)) := by
  have hread : ∀ t', set_element_f32 t i v = some t' →
      get_element_f32 t' i = some (F32.zero false) := by
    intro t' h
    exact get_element_f32_f16 ((set_element_f32_type h).1.trans ht) i
  refine ⟨get_element_f32_f16 ht i, rfl, hread, ?_⟩
  intro hv hs
  by_cases hi : i < t.length
  · obtain ⟨t', h⟩ := set_element_f32_defined hv hi hs
    exact ⟨t', h, hread t' h⟩
  · have h : set_element_f32 t i v = some t := by
      unfold set_element_f32
      rw [if_pos (by omega)]
    exact ⟨t, h, hread t h⟩

set_option maxRecDepth 100000 in
theorem get_element_f32_f16_zero_witness :
    get_element_f32 ⟨TensorType.DTYPE_F16, 1, some [byteOf 0, byteOf 60], F32.one, I8.zero⟩ 0
      = some (F32.zero false) ∧ (F32.zero false).bits = 0 ∧
    (∀ t', set_element_f32
        ⟨TensorType.DTYPE_F16, 1, some [byteOf 0, byteOf 60], F32.one, I8.zero⟩ 0
        (F32.ofInt 7) = some t' → get_element_f32 t' 0 = some (F32.zero false)) ∧
    (TinyTensor.Valid ⟨TensorType.DTYPE_F16, 1, some [byteOf 0, byteOf 60], F32.one, I8.zero⟩ →
      TinyTensor.Storable
        ⟨TensorType.DTYPE_F16, 1, some [byteOf 0, byteOf 60], F32.one, I8.zero⟩ (F32.ofInt 7) →
      ∃ t', set_element_f32
          ⟨TensorType.DTYPE_F16, 1, some [byteOf 0, byteOf 60], F32.one, I8.zero⟩ 0
          (F32.ofInt 7) = some t' ∧ get_element_f32 t' 0 = some (F32.zero false)) :=
  get_element_f32_f16_zero _ 0 (F32.ofInt 7) rfl

/-! ## The zero point (C13) -/

/-- C13 (amended): in a `DTYPE_I8` tensor with a buffer of `length` bytes and a
finite scale other than zero, for every zero point `z` and index
`i < length`, `set_element_f32(t, i, 0.0f)` stores exactly `z` at element `i`,
and `get_element_f32` of an element whose stored integer is `z` returns a
float zero carrying the sign of the scale: `+0.0f` for a positive scale,
`-0.0f` for a negative one. -/
theorem zero_point_represents_zero (t : TinyTensor) (i : Nat)
    (ht : t.type = TensorType.DTYPE_I8) (hv : t.Valid) (hi : i < t.length)
    (hfin : t.scale.isFinite) (hnz : t.scale.toRat ≠ 0) :
    (∃ t', set_element_f32 t i (F32.zero false) = some t' ∧
      load_i8 t'.data i = some t.zero_point ∧
      get_element_f32 t' i = some (F32.zero t.scale.sign)) ∧
    (load_i8 t.data i = some t.zero_point →
      get_element_f32 t i = some (F32.zero t.scale.sign)) ∧
    (F32.zero t.scale.sign).isFinite ∧ (F32.zero t.scale.sign).toRat = 0 ∧
    (0 < t.scale.toRat → F32.zero t.scale.sign = F32.zero false) := by
  obtain ⟨ss, ms, es, hs⟩ := F32.decode_of_isFinite hfin
  have hms := F32.mantissa_ne_zero hs hnz
  have hsign := F32.decode_sign hs
  have hzlo := t.zero_point.lo
  have hzhi := t.zero_point.hi
  have hread : ∀ t' : TinyTensor, t'.type = TensorType.DTYPE_I8 → t'.length = t.length →
      t'.scale = t.scale → t'.zero_point = t.zero_point →
      load_i8 t'.data i = some t.zero_point →
      get_element_f32 t' i = some (F32.zero t.scale.sign) := by
    intro t' h1 h2 h3 h4 h5
    unfold get_element_f32
    rw [if_neg (by simp only [ge_iff_le]; omega)]
    simp only [h1, reduceCtorEq, if_false, if_true, h5, h3, h4, sub_self, F32.ofInt_zero,
      F32.fmul_zero_left hs, hsign]
  refine ⟨?_, hread t ht rfl rfl rfl, ?_, ?_, ?_⟩
  · obtain ⟨t', hset, hload, h1, h2, h3, h4⟩ :=
      set_i8_stores ht hv hi (quantize_target_zero t.zero_point hs hms) (by omega) (by omega)
    rw [wrapInt8_val] at hload
    exact ⟨t', hset, hload, hread t' (h1.trans ht) h2 h3 h4 hload⟩
  · cases t.scale.sign <;> decide
  · unfold F32.toRat
    rw [F32.decode_zero]
    simp [FVal.toRat]
  · intro hpos
    unfold F32.toRat at hpos
    rw [hs] at hpos
    simp only [FVal.toRat] at hpos
    rw [← hsign]
    cases ss with
    | false => rfl
    | true =>
      simp only [if_true, neg_mul] at hpos
      have : (0 : ℚ) ≤ (ms : ℚ) * (2 : ℚ) ^ es := by positivity
      linarith

set_option maxRecDepth 100000 in
theorem zero_point_represents_zero_witness :
    (∃ t', set_element_f32 offset_tensor 0 (F32.zero false) = some t' ∧
      load_i8 t'.data 0 = some offset_tensor.zero_point ∧
      get_element_f32 t' 0 = some (F32.zero offset_tensor.scale.sign)) ∧
    (load_i8 offset_tensor.data 0 = some offset_tensor.zero_point →
      get_element_f32 offset_tensor 0 = some (F32.zero offset_tensor.scale.sign)) ∧
    (F32.zero offset_tensor.scale.sign).isFinite ∧
    (F32.zero offset_tensor.scale.sign).toRat = 0 ∧
    (0 < offset_tensor.scale.toRat → F32.zero offset_tensor.scale.sign = F32.zero false) :=
  zero_point_represents_zero offset_tensor 0 rfl ⟨[byteOf 0], rfl, rfl⟩ (by decide) (by decide)
    (by
      have h : offset_tensor.scale = F32.one := rfl
      rw [h, F32.toRat_one]
      norm_num)

set_option maxRecDepth 100000 in
/-- C13 (as stated) fails: the scale `+infinity` is not zero, and with it and
`zero_point = 5` the write of `0.0f` does store `5`
(`0.0f / inf + 5.0f = 5.0f`), but reading an element whose stored integer is
`5` returns `(float)(5 - 5) * inf`, a NaN, not `0.0f`. -/
theorem zero_point_infinite_scale_counterexample :
    inf_scale_tensor.type = TensorType.DTYPE_I8 ∧ inf_scale_tensor.Valid ∧
    0 < inf_scale_tensor.length ∧
    inf_scale_tensor.scale ≠ F32.zero false ∧ inf_scale_tensor.scale ≠ F32.zero true ∧
    set_element_f32 inf_scale_tensor 0 (F32.zero false) = some inf_scale_tensor ∧
    load_i8 inf_scale_tensor.data 0 = some inf_scale_tensor.zero_point ∧
    get_element_f32 inf_scale_tensor 0 = some F32.qnan ∧
    F32.qnan.decode = FVal.nan ∧
    get_element_f32 inf_scale_tensor 0 ≠ some (F32.zero false) ∧
    get_element_f32 inf_scale_tensor 0 ≠ some (F32.zero true) := by
  refine ⟨rfl, ⟨[byteOf 5], rfl, rfl⟩, by decide, by decide, by decide, by decide, by decide,
    by decide, by decide, by decide, by decide⟩

/-! ## The stored quantised value (C14) -/

/-- C14 (amended): for every `DTYPE_I8` tensor with a buffer of `length` bytes,
every index `i < length` and every value `v` for which the integral part `p`
of the float sum `v / scale + zero_point` fits 32 signed bits,
`set_element_f32` stores at element `i` the integer `p` narrowed to 8 signed
bits by two's-complement wrap: the value in `[-128, 127]` congruent to `p`
modulo 256. -/
theorem set_element_f32_i8_stores (t : TinyTensor) (i : Nat) (v : F32) (p : Int)
    (ht : t.type = TensorType.DTYPE_I8) (hv : t.Valid) (hi : i < t.length)
    (hp : quantize_target t.scale t.zero_point v = some p)
    (hlo : -2147483648 ≤ p) (hhi : p ≤ 2147483647) :
    ∃ t' q, set_element_f32 t i v = some t' ∧ load_i8 t'.data i = some q ∧
      -128 ≤ q.val ∧ q.val ≤ 127 ∧ (p - q.val) % 256 = 0 ∧
      (-128 ≤ p → p ≤ 127 → q.val = p) := by
  obtain ⟨t', hset, hload, _⟩ := set_i8_stores ht hv hi hp hlo hhi
  refine ⟨t', wrapInt8 p, hset, hload, (wrapInt8 p).lo, (wrapInt8 p).hi, ?_, ?_⟩
  · simp only [wrapInt8]
    omega
  · intro h1 h2
    exact wrapInt8_val_of_range h1 h2

set_option maxRecDepth 100000 in
theorem set_element_f32_i8_stores_witness :
    ∃ t' q, set_element_f32 half_step_tensor 0 (F32.ofInt 125) = some t' ∧
      load_i8 t'.data 0 = some q ∧
      -128 ≤ q.val ∧ q.val ≤ 127 ∧ (253 - q.val) % 256 = 0 ∧
      (-128 ≤ (253 : Int) → (253 : Int) ≤ 127 → q.val = 253) :=
  set_element_f32_i8_stores half_step_tensor 0 (F32.ofInt 125) 253 rfl
    ⟨[byteOf 0], rfl, rfl⟩ (by decide) (by decide) (by decide) (by decide)

set_option maxRecDepth 100000 in
/-- C14 (as stated) fails: with `scale = 0.5f`, `zero_point = 3` and
`v = -0.25f` the claimed value `round_toward_zero(v / s) + z` is `0 + 3 = 3`;
the code truncates the sum `-0.5f + 3.0f = 2.5f` and stores `2`. -/
theorem set_element_f32_i8_order_counterexample :
    half_step_tensor.type = TensorType.DTYPE_I8 ∧ half_step_tensor.Valid ∧
    0 < half_step_tensor.length ∧
    half_step_tensor.scale ≠ F32.zero false ∧ half_step_tensor.scale ≠ F32.zero true ∧
    spec_quantize_target half_step_tensor.scale half_step_tensor.zero_point
        (F32.ofDecimal true 1 4) = some 3 ∧
    ∃ t', set_element_f32 half_step_tensor 0 (F32.ofDecimal true 1 4) = some t' ∧
      load_i8 t'.data 0 = some (wrapInt8 2) ∧ wrapInt8 2 ≠ wrapInt8 3 := by
  refine ⟨rfl, ⟨[byteOf 0], rfl, rfl⟩, by decide, by decide, by decide, by decide,
    ⟨TensorType.DTYPE_I8, 1, some [byteOf 2], F32.ofDecimal false 1 2,
      ⟨3, by decide, by decide⟩⟩, by decide, by decide, by decide⟩

/-! ## Dequantisation (C15) -/

/-- C15: for every `DTYPE_I8` tensor and every index `i < length` whose stored
`int8_t` is `q`, `get_element_f32` returns the float product
`(float)(q - zero_point) * scale`, where `q - zero_point` is the exact integer
difference (between `-255` and `255`, converted to float without rounding);
for a finite scale the result is the round-to-nearest-even image of the exact
product `(q - zero_point) * scale`. -/
theorem get_element_f32_i8 (t : TinyTensor) (i : Nat) (q : I8)
    (ht : t.type = TensorType.DTYPE_I8) (hi : i < t.length)
    (hq : load_i8 t.data i = some q) :
    get_element_f32 t i = some (F32.fmul (F32.ofInt (q.val - t.zero_point.val)) t.scale) ∧
    -255 ≤ q.val - t.zero_point.val ∧ q.val - t.zero_point.val ≤ 255 ∧
    (F32.ofInt (q.val - t.zero_point.val)).isFinite ∧
    (F32.ofInt (q.val - t.zero_point.val)).toRat = ((q.val - t.zero_point.val : Int) : ℚ) ∧
    (t.scale.isFinite → ∃ neg n e,
      F32.fmul (F32.ofInt (q.val - t.zero_point.val)) t.scale = F32.round neg n 1 e ∧
      (if neg then -(n : ℚ) else (n : ℚ)) * (2 : ℚ) ^ e
        = ((q.val - t.zero_point.val : Int) : ℚ) * t.scale.toRat) := by
  have hqlo := q.lo
  have hqhi := q.hi
  have hzlo := t.zero_point.lo
  have hzhi := t.zero_point.hi
  have hk : (q.val - t.zero_point.val).natAbs < 16777216 := by omega
  obtain ⟨hf, hr⟩ := F32.toRat_ofInt hk
  refine ⟨?_, by omega, by omega, hf, hr, ?_⟩
  · unfold get_element_f32
    rw [if_neg (by simp only [ge_iff_le]; omega)]
    simp only [ht, reduceCtorEq, if_false, if_true, hq]
  · intro hfin
    obtain ⟨ss, ms, es, hs⟩ := F32.decode_of_isFinite hfin
    exact F32.fmul_ofInt hk hs

set_option maxRecDepth 100000 in
theorem get_element_f32_i8_witness :
    get_element_f32
        ⟨TensorType.DTYPE_I8, 1, some [byteOf 128], F32.ofDecimal false 5 100, wrapInt8 127⟩ 0
      = some (F32.fmul (F32.ofInt ((wrapInt8 (-128)).val - (wrapInt8 127).val))
          (F32.ofDecimal false 5 100)) ∧
    -255 ≤ (wrapInt8 (-128)).val - (wrapInt8 127).val ∧
    (wrapInt8 (-128)).val - (wrapInt8 127).val ≤ 255 ∧
    (F32.ofInt ((wrapInt8 (-128)).val - (wrapInt8 127).val)).isFinite ∧
    (F32.ofInt ((wrapInt8 (-128)).val - (wrapInt8 127).val)).toRat
      = (((wrapInt8 (-128)).val - (wrapInt8 127).val : Int) : ℚ) ∧
    ((F32.ofDecimal false 5 100).isFinite → ∃ neg n e,
      F32.fmul (F32.ofInt ((wrapInt8 (-128)).val - (wrapInt8 127).val))
          (F32.ofDecimal false 5 100) = F32.round neg n 1 e ∧
      (if neg then -(n : ℚ) else (n : ℚ)) * (2 : ℚ) ^ e
        = (((wrapInt8 (-128)).val - (wrapInt8 127).val : Int) : ℚ)
          * (F32.ofDecimal false 5 100).toRat) :=
  get_element_f32_i8
    ⟨TensorType.DTYPE_I8, 1, some [byteOf 128], F32.ofDecimal false 5 100, wrapInt8 127⟩ 0
    (wrapInt8 (-128)) rfl (by decide) (by decide)

/-! ## Float16 writes (C16) -/

/-- C16: for every `DTYPE_F16` tensor with a buffer of `length * 2` bytes,
every index `i < length` and every finite value `v` with `0 ≤ v < 65536`,
`set_element_f32` stores at element `i` the two bytes (low byte first) of the
integer `n = ⌊v⌋`, the numeric value of `v` truncated toward zero. -/
theorem set_element_f32_f16 (t : TinyTensor) (i : Nat) (v : F32)
    (ht : t.type = TensorType.DTYPE_F16) (hv : t.Valid) (hi : i < t.length)
    (hfin : v.isFinite) (h0 : 0 ≤ v.toRat) (h1 : v.toRat < 65536) :
    ∃ (t' : TinyTensor) (n : Nat), set_element_f32 t i v = some t' ∧
      (n : ℚ) ≤ v.toRat ∧ v.toRat < (n : ℚ) + 1 ∧ n < 65536 ∧
      t'.element_bytes i = some [byteOf n, byteOf (n / 256)] := by
  obtain ⟨n, hn, hn1, hn2, hn3⟩ := F32.toUInt16_of_range hfin h0 h1
  obtain ⟨buf, hbuf, hlen⟩ := hv
  rw [ht] at hlen
  have hle : 2 * i + (u16ToBytes n).length ≤ buf.length := by
    rw [hlen]; simp only [element_size, u16ToBytes, List.length_cons, List.length_nil]; omega
  obtain ⟨buf', hw⟩ := writeBytes_isSome hle
  refine ⟨{ t with data := some buf' }, n, ?_, hn1, hn2, hn3, ?_⟩
  · unfold set_element_f32
    rw [if_neg (by omega)]
    simp only [ht, reduceCtorEq, if_false, if_true, hn, store_u16, hbuf, hw]
  · have hr := readBytes_writeBytes_same hw
    simp only [u16ToBytes, List.length_cons, List.length_nil] at hr
    simp only [TinyTensor.element_bytes, ht, element_size]
    exact hr

set_option maxRecDepth 100000 in
theorem set_element_f32_f16_witness :
    (∃ (t' : TinyTensor) (n : Nat), set_element_f32 half_tensor 0 F32.one = some t' ∧
      (n : ℚ) ≤ F32.one.toRat ∧ F32.one.toRat < (n : ℚ) + 1 ∧ n < 65536 ∧
      t'.element_bytes 0 = some [byteOf n, byteOf (n / 256)]) ∧
    set_element_f32 half_tensor 0 F32.one
      = some ⟨TensorType.DTYPE_F16, 1, some [byteOf 1, byteOf 0], F32.one, I8.zero⟩ :=
  ⟨set_element_f32_f16 half_tensor 0 F32.one rfl ⟨[byteOf 0, byteOf 0], rfl, rfl⟩ (by decide)
    (by decide) (by rw [F32.toRat_one]; norm_num) (by rw [F32.toRat_one]; norm_num),
   by decide⟩

/-! ## Fresh tensors (C17) -/

set_option maxRecDepth 100000 in
/-- C17: when both allocations succeed, the tensor `create_tensor(n, e)`
returns reads as `0.0f` at every index, in range or not, under every
encoding (for `DTYPE_I8` through `(float)(0 - 0) * 1.0f`). -/
theorem fresh_tensor_reads_zero (h : Heap) (n : Nat) (e : TensorType) (i : Nat)
    (hm : h.mallocOk = true) (hc : h.callocOk = true) :
    ∃ t, create_tensor h n e = some t ∧
      get_element_f32 t i = some (F32.zero false) ∧ (F32.zero false).bits = 0 := by
  refine ⟨⟨e, n, some (List.replicate (n * element_size e) 0), F32.one, I8.zero⟩, ?_, ?_, rfl⟩
  · simp [create_tensor, calloc, hm, hc]
  · unfold get_element_f32
    by_cases hi : i ≥ n
    · simp only [hi, if_true]
    · simp only [hi, if_false]
      cases e with
      | DTYPE_F32 =>
        simp only [if_true, load_f32, element_size]
        rw [readBytes_replicate_zero (by omega)]
        decide
      | DTYPE_F16 => simp
      | DTYPE_I8 =>
        simp only [reduceCtorEq, if_false, if_true, load_i8, element_size]
        rw [readBytes_replicate_zero (by omega)]
        decide

theorem fresh_tensor_reads_zero_witness :
    ∃ t, create_tensor ⟨true, true⟩ 10 TensorType.DTYPE_I8 = some t ∧
      get_element_f32 t 3 = some (F32.zero false) ∧ (F32.zero false).bits = 0 :=
  fresh_tensor_reads_zero ⟨true, true⟩ 10 TensorType.DTYPE_I8 3 rfl rfl

/-! ## The readable range (C18) -/

/-- C18 (amended): for every `DTYPE_I8` tensor with a buffer of `length` bytes
and a finite scale, whatever the zero point `z`, the buffer contents and the
index `i`: in range, `get_element_f32(t, i)` is the float product
`(float)k * scale` for an integer `k` with `-128 - z ≤ k ≤ 127 - z`; out of
range it is `+0.0f` (`k = 0`); and in both cases
`fabsf(get_element_f32(t, i)) <= fabsf(255 * scale)` holds for the float
product `255 * scale`. -/
theorem get_element_f32_i8_bounded (t : TinyTensor) (i : Nat)
    (ht : t.type = TensorType.DTYPE_I8) (hv : t.Valid) (hfin : t.scale.isFinite) :
    ∃ r k, get_element_f32 t i = some r ∧
      -128 - t.zero_point.val ≤ k ∧ k ≤ 127 - t.zero_point.val ∧
      (i < t.length → r = F32.fmul (F32.ofInt k) t.scale) ∧
      (t.length ≤ i → k = 0 ∧ r = F32.zero false) ∧
      F32.absLe r (F32.fmul (F32.ofInt 255) t.scale) := by
  obtain ⟨ss, ms, es, hs⟩ := F32.decode_of_isFinite hfin
  have hzlo := t.zero_point.lo
  have hzhi := t.zero_point.hi
  by_cases hi : i < t.length
  · obtain ⟨q, hq⟩ := load_i8_defined ht hv hi
    have hqlo := q.lo
    have hqhi := q.hi
    refine ⟨F32.fmul (F32.ofInt (q.val - t.zero_point.val)) t.scale, q.val - t.zero_point.val,
      ?_, by omega, by omega, fun _ => rfl, fun h => absurd hi (by omega), ?_⟩
    · unfold get_element_f32
      rw [if_neg (by simp only [ge_iff_le]; omega)]
      simp only [ht, reduceCtorEq, if_false, if_true, hq]
    · exact F32.fmul_ofInt_absLe (by omega) hs
  · refine ⟨F32.zero false, 0, ?_, by omega, by omega, fun h => absurd h hi,
      fun _ => ⟨rfl, rfl⟩, ?_⟩
    · unfold get_element_f32
      rw [if_pos (by simp only [ge_iff_le]; omega)]
    · exact F32.absLe_zero_left (F32.decode_zero false)
        (F32.fmul_ofInt_decode_ne_nan (by decide) hs)

set_option maxRecDepth 100000 in
theorem get_element_f32_i8_bounded_witness :
    ∃ r k, get_element_f32 step_tensor 0 = some r ∧
      -128 - step_tensor.zero_point.val ≤ k ∧ k ≤ 127 - step_tensor.zero_point.val ∧
      (0 < step_tensor.length → r = F32.fmul (F32.ofInt k) step_tensor.scale) ∧
      (step_tensor.length ≤ 0 → k = 0 ∧ r = F32.zero false) ∧
      F32.absLe r (F32.fmul (F32.ofInt 255) step_tensor.scale) :=
  get_element_f32_i8_bounded step_tensor 0 rfl ⟨[byteOf 0], rfl, rfl⟩ (by decide)

set_option maxRecDepth 100000 in
/-- C18 (as stated) fails for a scale that is not finite: with
`scale = +infinity`, `zero_point = 5` and the stored integer `5`,
`get_element_f32(t, 0)` is `(float)(5 - 5) * inf`, a NaN, which is not
`0 * inf` for any reading of the product as a number and satisfies no bound
(`255 * scale` is `+infinity`, and `fabsf(NaN) <= inf` is false). -/
theorem get_element_f32_i8_unbounded_counterexample :
    inf_scale_tensor.type = TensorType.DTYPE_I8 ∧ inf_scale_tensor.Valid ∧
    0 < inf_scale_tensor.length ∧
    (∃ q, load_i8 inf_scale_tensor.data 0 = some q ∧
      q.val - inf_scale_tensor.zero_point.val = 0) ∧
    F32.fmul (F32.ofInt 255) inf_scale_tensor.scale = F32.infinity false ∧
    ∃ r, get_element_f32 inf_scale_tensor 0 = some r ∧ r.decode = FVal.nan ∧
      ¬ F32.absLe r (F32.fmul (F32.ofInt 255) inf_scale_tensor.scale) := by
  have hd : F32.qnan.decode = FVal.nan := by decide
  refine ⟨rfl, ⟨[byteOf 5], rfl, rfl⟩, by decide, ⟨wrapInt8 5, by decide, by decide⟩,
    by decide, F32.qnan, by decide, hd, ?_⟩
  unfold F32.absLe
  rw [hd]
  simp

set_option maxRecDepth 100000 in
/-- The bound of C18 is one between floats: against the exact product it can
fail by rounding.  With `scale = 1 + 2^-23`, `zero_point = -128` and the
stored integer `127`, `get_element_f32` returns `fl(255 * scale) = 255 + 2^-15`,
which exceeds the exact `255 * scale = 255 + 255 * 2^-23`. -/
theorem rounded_product_exceeds_exact_bound :
    ∃ r, get_element_f32 unit_step_tensor 0 = some r ∧
      r = F32.fmul (F32.ofInt 255) unit_step_tensor.scale ∧ r.isFinite ∧
      255 * |unit_step_tensor.scale.toRat| < |r.toRat| := by
  have hs : unit_step_tensor.scale.decode = FVal.fin false 8388609 (-23) := by decide
  have hr : (F32.fmul (F32.ofInt 255) unit_step_tensor.scale).decode
      = FVal.fin false 16711682 (-16) := by decide
  refine ⟨F32.fmul (F32.ofInt 255) unit_step_tensor.scale, by decide, rfl, by decide, ?_⟩
  unfold F32.toRat
  rw [hs, hr]
  simp only [FVal.toRat]
  norm_num
  rw [abs_of_pos (by norm_num), abs_of_pos (by norm_num)]
  norm_num

end Odev1
